import Mathlib

/-!
Verification of the schema-compiler tool `generate_types_from_api_json.py`
(the only algorithmically non-trivial component of the repository).

The Python source is shallowly embedded below:

* pure functions become Lean functions on `List Char` / `String`;
* Python `dict`s (which preserve insertion order and are only iterated in
  insertion order by the source) become insertion-ordered association lists;
* Python `set`s (which the source only tests for membership, or iterates via
  `sorted(...)`) become duplicate-free lists built with membership-guarded
  append;
* `dict[key]` access on a possibly-missing key (Python `KeyError`) and the
  `IndexError` reachable in `parse_field_path` become `Option` failure;
* the regular-expression substitutions of `to_snake_case` are embedded as
  character-list transducers implementing exactly the leftmost,
  non-overlapping semantics of `re.sub` for those three concrete patterns;
* `str.lower()` is modelled on the ASCII range `A`-`Z` (the character classes
  used by the source's regexes are ASCII, and generated identifiers are
  ASCII).

Sections: definitions first, then the theorems about them.
-/

/-! ## Basic character helpers (ASCII classes used by the source's regexes) -/

/-- The regex class `[A-Z]` (codepoints 65-90). -/
def isUpperAZ (c : Char) : Bool :=
  decide (65 ≤ c.toNat ∧ c.toNat ≤ 90)

/-- The regex class `[a-z]` (codepoints 97-122). -/
def isLowerAZ (c : Char) : Bool :=
  decide (97 ≤ c.toNat ∧ c.toNat ≤ 122)

/-- The regex class `[a-z0-9]`. -/
def isLowerDigit (c : Char) : Bool :=
  isLowerAZ c || decide (48 ≤ c.toNat ∧ c.toNat ≤ 57)

/-- Python `str.lower()` restricted to ASCII: maps `A`-`Z` to `a`-`z` and
leaves every other character unchanged. -/
def pyLowerChar (c : Char) : Char :=
  if h : 65 ≤ c.toNat ∧ c.toNat ≤ 90 then
    Char.ofNatAux (c.toNat + 32) (Or.inl (by omega))
  else c

/-! ## `to_snake_case` (lines 285-294 of the source)

`re.sub(r"([A-Z]+)([A-Z][a-z])", r"\1_\2", name)` inserts an underscore
between two upper-case characters when the second one is followed by a
lower-case character (the first upper-case character is the last character of
the greedy `[A-Z]+` run).  Scanning is left to right; after a replacement the
scan resumes after the matched `[A-Z][a-z]`, which cannot overlap a further
match start, so the window transducer below is equivalent. -/

def sub1 : List Char → List Char
  | c1 :: c2 :: c3 :: rest =>
    if isUpperAZ c1 && isUpperAZ c2 && isLowerAZ c3 then
      c1 :: '_' :: sub1 (c2 :: c3 :: rest)
    else
      c1 :: sub1 (c2 :: c3 :: rest)
  | l => l

/-- `re.sub(r"([a-z0-9])([A-Z])", r"\1_\2", s)`: insert an underscore between
a lower-case-or-digit character and a following upper-case character. -/
def sub2 : List Char → List Char
  | c1 :: c2 :: rest =>
    if isLowerDigit c1 && isUpperAZ c2 then
      c1 :: '_' :: sub2 (c2 :: rest)
    else
      c1 :: sub2 (c2 :: rest)
  | l => l

/-- `re.sub(r"__+", "_", s)` collapses every maximal run of underscores to a
single underscore (runs of length one are left as they are, which is the same
result).  The flag records whether the previously emitted character was an
underscore. -/
def collapseAux : Bool → List Char → List Char
  | _, [] => []
  | prevU, c :: rest =>
    if c = '_' then
      if prevU then collapseAux true rest
      else '_' :: collapseAux true rest
    else c :: collapseAux false rest

def collapseUnd (l : List Char) : List Char :=
  collapseAux false l

/-- `APIStructGenerator.to_snake_case` (source lines 285-294). -/
def to_snake_case (name : String) : String :=
  if name = "" then name
  else ⟨(collapseUnd (sub2 (sub1 name.data))).map pyLowerChar⟩

/-- Whether the head of the list is an underscore. -/
def headUnd : List Char → Bool
  | c :: _ => decide (c = '_')
  | [] => false

/-- No two adjacent underscores occur in the list. -/
def noDoubleUnd : List Char → Bool
  | c1 :: c2 :: rest =>
    !(decide (c1 = '_') && decide (c2 = '_')) && noDoubleUnd (c2 :: rest)
  | _ => true

/-! ## `sanitize_docstring` (source lines 37-44)

`text.replace('"""', '\\"\\"\\"')` replaces every leftmost non-overlapping
occurrence of three double quotes by backslash-quote three times; then `\r`
and `\n` are replaced by spaces; finally `' '.join(text.split())` re-joins
the maximal whitespace-free tokens with single spaces.  `str.split()` splits
on whitespace; we model its ASCII whitespace characters. -/

/-- ASCII whitespace as recognised by Python `str.split()`. -/
def isPyWs (c : Char) : Bool :=
  c = ' ' || c = '\t' || c = '\n' || c = '\r' || c = '\x0b' || c = '\x0c'

/-- `text.replace('"""', '\\"\\"\\"')`: leftmost, non-overlapping. -/
def replaceTripleQuote : List Char → List Char
  | '"' :: '"' :: '"' :: rest =>
    '\\' :: '"' :: '\\' :: '"' :: '\\' :: '"' :: replaceTripleQuote rest
  | c :: rest => c :: replaceTripleQuote rest
  | [] => []

/-- `text.replace('\r', ' ')` for a single character. -/
def crToSpace (c : Char) : Char := if c = '\r' then ' ' else c

/-- `text.replace('\n', ' ')` for a single character. -/
def nlToSpace (c : Char) : Char := if c = '\n' then ' ' else c

/-- `str.split()` (no separator): maximal runs of non-whitespace characters;
`cur` holds the current token, reversed. -/
def splitWsAux : List Char → List Char → List (List Char)
  | cur, [] => if cur = [] then [] else [cur.reverse]
  | cur, c :: rest =>
    if isPyWs c then
      if cur = [] then splitWsAux [] rest
      else cur.reverse :: splitWsAux [] rest
    else splitWsAux (c :: cur) rest

def pySplitWs (l : List Char) : List (List Char) :=
  splitWsAux [] l

/-- `' '.join(tokens)`. -/
def joinSp : List (List Char) → List Char
  | [] => []
  | [t] => t
  | t :: ts => t ++ ' ' :: joinSp ts

/-- `sanitize_docstring` (source lines 37-44). -/
def sanitize_docstring (text : String) : String :=
  if text = "" then ""
  else ⟨joinSp (pySplitWs (((replaceTripleQuote text.data).map crToSpace).map nlToSpace))⟩

/-- Whether three consecutive double-quote characters occur somewhere. -/
def hasTripleQuote : List Char → Bool
  | '"' :: '"' :: '"' :: _ => true
  | _ :: rest => hasTripleQuote rest
  | [] => false

/-- Whether the head character is whitespace. -/
def headWs : List Char → Bool
  | c :: _ => isPyWs c
  | [] => false

/-- No two adjacent whitespace characters occur in the list. -/
def noAdjWs : List Char → Bool
  | c1 :: c2 :: rest => !(isPyWs c1 && isPyWs c2) && noAdjWs (c2 :: rest)
  | _ => true

/-- Every character is either a non-whitespace character or a single space. -/
def allSpOrNonWs (l : List Char) : Bool :=
  l.all (fun c => !isPyWs c || decide (c = ' '))

/-- No newline and no carriage return occurs in the list. -/
def noNlCr (l : List Char) : Bool :=
  l.all (fun c => !(decide (c = '\n') || decide (c = '\r')))

/-! ## `parse_field_path` (source lines 255-283) -/

/-- Python `s.split(".")` on the character list: split at every dot, keeping
empty segments (so the result is always non-empty). -/
def splitDotData : List Char → List (List Char)
  | [] => [[]]
  | c :: rest =>
    let r := splitDotData rest
    if c = '.' then [] :: r
    else
      match r with
      | [] => [[c]]
      | t :: ts => (c :: t) :: ts

/-- Python `field_name.split(".")`. -/
def pySplitDot (s : String) : List String :=
  (splitDotData s.data).map (fun l => ⟨l⟩)

/-- Python `".".join(parts)`. -/
def joinDot : List String → String
  | [] => ""
  | [s] => s
  | s :: rest => s ++ "." ++ joinDot rest

/-- `APIStructGenerator.parse_field_path` (source lines 255-283).  Returns
`(path_parts, final_name, is_array_item, is_simple_array)`.  Python raises
`IndexError` (modelled as `none`) when every segment of the path is the
array marker `N`, because `clean_parts[-1]` is then evaluated on an empty
list. -/
def parse_field_path (field_name : String) : Option (List String × String × Bool × Bool) :=
  let parts := pySplitDot field_name
  let is_simple_array : Bool := decide (2 ≤ parts.length) && decide (parts.getLast? = some "N")
  let is_array_item : Bool :=
    if 1 < parts.length then decide ("N" ∈ parts.dropLast) else false
  let clean_parts := parts.filter (fun p => p ≠ "N")
  match clean_parts with
  | [] => none
  | [only] => some ([], only, false, false)
  | p :: q :: rest =>
    some ((p :: q :: rest).dropLast, (p :: q :: rest).getLast (by simp),
      is_array_item, is_simple_array)

/-! ## Type-name uniqueness (source lines 220-253) -/

/-- One decimal digit (the argument is taken modulo 10, matching every call
site which passes a value below 10). -/
def digitChar (d : Nat) : Char :=
  Char.ofNatAux (48 + d % 10) (Or.inl (by omega))

/-- Decimal digits of a natural number, most significant first; `fuel`
bounds the recursion and any value above the number itself suffices. -/
def natToDecimalAux : Nat → Nat → List Char
  | _, 0 => []
  | n, fuel + 1 =>
    if n < 10 then [digitChar n]
    else natToDecimalAux (n / 10) fuel ++ [digitChar (n % 10)]

/-- Python `f"{index}"`: the decimal rendering of a natural number. -/
def natToDecimal (n : Nat) : String :=
  ⟨natToDecimalAux n (n + 1)⟩

/-- The candidate names tried by `qualify_model_name`: `f"{base}For{action}"`
for attempt 0 and `f"{base}For{action}{i}"` for attempt index `i ≥ 2`. -/
def candidate_name (base action : String) (i : Nat) : String :=
  if i ≤ 1 then base ++ "For" ++ action
  else base ++ "For" ++ action ++ natToDecimal i

/-- `APIStructGenerator.register_class_name` (source lines 220-222):
`set.add` on the registry of generated class names. -/
def register_class_name (st : List String) (name : String) : List String :=
  if name ∈ st then st else st ++ [name]

/-- The `while candidate in self.generated_class_names` loop of
`qualify_model_name`: starting from attempt index `i` (0 = the bare
`f"{base}For{action}"`, then 2, 3, ...), return the first candidate not in
the registry.  `fuel` bounds the iteration; `st.length + 2` provably
suffices (see `qualify_model_name_fresh` below), so the fallback clause is
never reached. -/
def qualifyAux (st : List String) (base action : String) : Nat → Nat → String
  | i, 0 => candidate_name base action i
  | i, fuel + 1 =>
    if candidate_name base action i ∈ st then
      qualifyAux st base action (if i ≤ 1 then 2 else i + 1) fuel
    else candidate_name base action i

/-- `APIStructGenerator.qualify_model_name` (source lines 224-232): find the
first unused candidate name, register it (`set.add`), and return it. -/
def qualify_model_name (st : List String) (base action : String) : String × List String :=
  let c := qualifyAux st base action 0 (st.length + 2)
  (c, register_class_name st c)

/-! ## Data model of the generator -/

/-- One input parameter row (a JSON object).  A missing key is `none`:
`row["Name"]` raises `KeyError` when `Name` is `none`, while
`row.get(key, default)` yields the default.  `ParameterTypeRef` models
`row.get("ParameterType", {}).get("$ref", "")`. -/
structure Param where
  Name : Option String
  TypeId : Option Int
  IsRequired : Option Int
  Description : Option String
  IsArray : Option Int
  ParameterTypeRef : Option String
deriving DecidableEq, Repr

/-- `TypeMapper.get_python_type` (source lines 50-64): closed lookup table
with default fallback `"str"`. -/
def get_python_type (t : Int) : String :=
  if t = 1 then "str" else if t = 2 then "int" else if t = 3 then "float"
  else if t = 4 then "int" else if t = 5 then "float" else if t = 6 then "bool"
  else if t = 7 then "dict" else if t = 8 then "list" else "str"

/-- `FieldInfo` (source lines 67-96), the data part. -/
structure FieldInfo where
  name : String
  python_name : String
  type_str : String
  is_required : Bool
  is_array : Bool
  description : String
deriving DecidableEq, Repr

/-- `NestedModel` (source lines 99-131): class name and ordered field list
(the `children` map of the source class is never used by the generator). -/
structure NestedModel where
  name : String
  fields : List FieldInfo
deriving DecidableEq, Repr

/-! ### Association lists modelling Python dicts (insertion-ordered) -/

def alGet {α : Type} : List (String × α) → String → Option α
  | [], _ => none
  | (k, v) :: rest, key => if k = key then some v else alGet rest key

def alMem {α : Type} (m : List (String × α)) (k : String) : Bool :=
  (alGet m k).isSome

/-- `d[k] = v`: replace in place when the key exists, else append. -/
def alSet {α : Type} : List (String × α) → String → α → List (String × α)
  | [], k, v => [(k, v)]
  | (k', v') :: rest, k, v =>
    if k' = k then (k, v) :: rest else (k', v') :: alSet rest k v

/-- Python `set.add` for a set modelled as a duplicate-free list. -/
def addToSetList (l : List String) (x : String) : List String :=
  if x ∈ l then l else l ++ [x]

/-- `defaultdict(set)`: `m[k].add(v)`. -/
def alAddToSet (m : List (String × List String)) (k v : String) :
    List (String × List String) :=
  match alGet m k with
  | none => m ++ [(k, [v])]
  | some s => alSet m k (addToSetList s v)

/-- Append a field to the model stored under class name `k` (no-op when the
key is absent; every call site is guarded by a membership test, mirroring
the source's `if path in path_models` guards). -/
def alAddField (cms : List (String × NestedModel)) (k : String) (f : FieldInfo) :
    List (String × NestedModel) :=
  match alGet cms k with
  | none => cms
  | some m => alSet cms k ⟨m.name, m.fields ++ [f]⟩

/-- Python `sorted` on strings (ascending code-point order) as a stable
insertion sort — extensionally the same on the duplicate-free lists the
source applies it to. -/
def insertSorted (x : String) : List String → List String
  | [] => [x]
  | y :: rest => if x < y then x :: y :: rest else y :: insertSorted x rest

def sortStr (l : List String) : List String :=
  l.foldr insertSorted []

/-! ## Model-name construction (source lines 234-253) -/

/-- `APIStructGenerator._strip_generic_suffix` (source lines 234-239): drop
the first matching generic suffix when that leaves a non-empty remainder. -/
def strip_generic_suffix (name : String) : String :=
  match ["Configuration", "Config", "Info", "List", "Item", "Items"].find?
      (fun suf => suf.data.isSuffixOf name.data &&
        decide (suf.data.length < name.data.length)) with
  | some suf => ⟨name.data.take (name.data.length - suf.data.length)⟩
  | none => name

/-- `APIStructGenerator._build_nested_base_name` (source lines 241-253). -/
def build_nested_base_name (path : String) (is_array_object : Bool) : String :=
  let parts := ((pySplitDot path).filter (fun p => p ≠ "")).map strip_generic_suffix
  let core :=
    match parts with
    | [] => "NestedModel"
    | [p] => p
    | _ => String.join parts
  if is_array_object then core ++ "Item" else core

/-! ## `create_nested_structure` (source lines 296-530) -/

/-- The parsed form of one row: the row together with the classifier output
`(path_parts, final_name, is_array_item, is_simple_array)`. -/
abbrev ParsedRow := Param × (List String × String × Bool × Bool)

/-- Accumulators of the discovery pass (source lines 303-325). -/
structure Discovery where
  array_fields : List (String × List String)
  normal_fields : List (String × List String)
  nested_object_paths : List String
deriving DecidableEq, Repr

/-- Record the prefix paths `".".join(path_parts[:i])` for `i = 1 ..
len(path_parts)` (source lines 322-325). -/
def addPrefixPaths (nops : List String) (pp : List String) : List String :=
  (List.range pp.length).foldl
    (fun acc i => addToSetList acc (joinDot (pp.take (i + 1)))) nops

/-- One iteration of the discovery pass (source lines 308-325). -/
def recordRow (d : Discovery) (row : ParsedRow) : Discovery :=
  let pp := row.2.1
  let fn := row.2.2.1
  let ai := row.2.2.2.1
  if 0 < pp.length then
    let ps := joinDot pp
    let d1 :=
      if ai then { d with array_fields := alAddToSet d.array_fields ps fn }
      else { d with normal_fields := alAddToSet d.normal_fields ps fn }
    { d1 with nested_object_paths := addPrefixPaths d1.nested_object_paths pp }
  else d

def firstPass (rows : List ParsedRow) : Discovery :=
  rows.foldl recordRow ⟨[], [], []⟩

/-- `array_objects` (source lines 327-332): the ownership paths that have
array-item fields recorded and no other fields recorded. -/
def array_objects_of (d : Discovery) : List (String × List String) :=
  d.array_fields.filter (fun kv => !alMem d.normal_fields kv.1)

/-- State while creating the per-path models.  `pcn` is
`path_class_names`; `cms` is `class_models`; `reg` is the generated-names
registry.  In the source `path_models[path]` and `class_models[name]` alias
one mutable object, so `path_models` is modelled as `pcn` composed with
`cms` (the two dicts are always updated together). -/
structure BuildSt where
  pcn : List (String × String)
  cms : List (String × NestedModel)
  reg : List String
deriving DecidableEq, Repr

/-- One iteration of the model-creation loop for non-array-object paths. -/
def createNormalStep (d : Discovery) (action : String) (b : BuildSt) (path : String) :
    BuildSt :=
  if alMem (array_objects_of d) path then b
  else
    let q := qualify_model_name b.reg (build_nested_base_name path false) action
    ⟨alSet b.pcn path q.1, alSet b.cms q.1 ⟨q.1, []⟩, q.2⟩

/-- Source lines 334-342: create models for non-array-object nested paths,
in sorted path order. -/
def createNormalModels (d : Discovery) (action : String) (reg : List String) : BuildSt :=
  (sortStr d.nested_object_paths).foldl (createNormalStep d action) ⟨[], [], reg⟩

/-- Source lines 344-356: create the `Item` models for array-object paths,
in the insertion order of `array_fields` (the `continue` of lines 349-351
is unreachable, because every recorded array path is a nested object path;
it is mirrored nonetheless). -/
def createArrayStep (d : Discovery) (action : String) (b : BuildSt)
    (kv : String × List String) : BuildSt :=
  if (pySplitDot kv.1).length = 1 || kv.1 ∈ d.nested_object_paths then
    let q := qualify_model_name b.reg (build_nested_base_name kv.1 true) action
    ⟨alSet b.pcn kv.1 q.1, alSet b.cms q.1 ⟨q.1, []⟩, q.2⟩
  else b

def createArrayModels (d : Discovery) (action : String) (b0 : BuildSt) : BuildSt :=
  (array_objects_of d).foldl (createArrayStep d action) b0

/-- Source lines 363-388: attach to each nested path of depth ≥ 2 a
reference field on its parent model, typed with the child's class name and
array-wrapped exactly when the child path is an array object; skip when the
parent already has a field with the same normalized identifier. -/
def wireStep (d : Discovery) (b : BuildSt) (cms : List (String × NestedModel))
    (full_path : String) : List (String × NestedModel) :=
  let parts := pySplitDot full_path
  if parts.length < 2 then cms
  else
    let parent_path := joinDot parts.dropLast
    let child_name := parts.getLastD ""
    match alGet b.pcn parent_path with
    | none => cms
    | some parentCN =>
      match alGet cms parentCN with
      | none => cms
      | some pm =>
        let child_python := to_snake_case child_name
        if pm.fields.any (fun f => decide (f.python_name = child_python)) then cms
        else
          alSet cms parentCN ⟨pm.name, pm.fields ++
            [⟨child_name, child_python,
              (alGet b.pcn full_path).getD child_name, false,
              alMem (array_objects_of d) full_path, ""⟩]⟩

def wirePass (d : Discovery) (b : BuildSt) : List (String × NestedModel) :=
  (sortStr d.nested_object_paths).foldl (wireStep d b) b.cms

/-- State of the field-filling pass (source lines 402-510): the class
models, the accumulated root fields, and `root_refs` mapping a root-level
object name to `(ref_type, is_array, is_required)`. -/
structure FillSt where
  cms : List (String × NestedModel)
  rootFields : List FieldInfo
  root_refs : List (String × (String × Bool × Bool))
deriving DecidableEq, Repr

/-- The leaf field constructed for an array-item row by the second pass
(source lines 466-475): note `is_array=False` — the leaf itself is a plain
member of the item (or, for a mixed path, of the plain nested) model. -/
def aiLeafField (row : ParsedRow) : FieldInfo :=
  ⟨row.2.2.1, to_snake_case row.2.2.1, get_python_type (row.1.TypeId.getD 1),
   decide (row.1.IsRequired.getD 0 = 1), false, row.1.Description.getD ""⟩

/-- One iteration of the field-filling pass (source lines 405-510). -/
def fillRow (pcn : List (String × String)) (f : FillSt) (row : ParsedRow) : FillSt :=
  let param := row.1
  let pp := row.2.1
  let fn := row.2.2.1
  let ai := row.2.2.2.1
  let sa := row.2.2.2.2
  let python_type := get_python_type (param.TypeId.getD 1)
  let is_required := decide (param.IsRequired.getD 0 = 1)
  let description := param.Description.getD ""
  let python_name := to_snake_case fn
  if pp.length = 0 then
    { f with rootFields := f.rootFields ++
        [⟨fn, python_name, python_type, is_required, false, description⟩] }
  else if sa then
    match alGet pcn (joinDot pp) with
    | some parentCN =>
      match alGet f.cms parentCN with
      | some pm =>
        if pm.fields.any (fun fl => decide (fl.python_name = python_name)) then f
        else { f with cms := alSet f.cms parentCN ⟨pm.name, pm.fields ++
            [⟨fn, python_name, python_type, is_required, true, description⟩]⟩ }
      | none => f
    | none =>
      if pp.length = 0 then
        { f with rootFields := f.rootFields ++
            [⟨fn, python_name, python_type, is_required, true, description⟩] }
      else f
  else if ai then
    match alGet pcn (joinDot pp) with
    | none => f
    | some cn =>
      let f1 := { f with cms := alAddField f.cms cn (aiLeafField row) }
      if pp.length = 1 then
        let array_name := pp.headD ""
        if alMem f1.root_refs array_name then f1
        else { f1 with root_refs := f1.root_refs ++ [(array_name, (cn, true, false))] }
      else f1
  else
    let f1 :=
      match alGet pcn (joinDot pp) with
      | none => f
      | some cn =>
        { f with cms := (alAddField f.cms cn
            ⟨fn, python_name, python_type, is_required, false, description⟩) }
    let root_level_name := pp.headD ""
    if alMem f1.root_refs root_level_name then f1
    else { f1 with root_refs := f1.root_refs ++
        [(root_level_name,
          ((alGet pcn root_level_name).getD root_level_name, false, false))] }

/-- Source lines 512-527: append the collected root-level object references
to the root's fields, skipping duplicated normalized identifiers. -/
def rootRefStep (rootFields : List FieldInfo) (kv : String × (String × Bool × Bool)) :
    List FieldInfo :=
  let python_name := to_snake_case kv.1
  if rootFields.any (fun fl => decide (fl.python_name = python_name)) then rootFields
  else rootFields ++ [⟨kv.1, python_name, kv.2.1, kv.2.2.2, kv.2.2.1, ""⟩]

def rootRefPass (f : FillSt) : List FieldInfo :=
  f.root_refs.foldl rootRefStep f.rootFields

/-- Parse every row: `row["Name"]` (`KeyError` when the key is absent)
followed by `parse_field_path` (possible `IndexError`).  Any failure aborts
the whole construction, as the uncaught exception does in the source. -/
def parseRows : List Param → Option (List ParsedRow)
  | [] => some []
  | p :: rest => do
    let n ← p.Name
    let q ← parse_field_path n
    let rs ← parseRows rest
    pure ((p, q) :: rs)

/-- `APIStructGenerator.create_nested_structure` (source lines 296-530).
Returns the root model (named `"Root"`, renamed by the caller), the
auxiliary class models in insertion order (stored into
`self.nested_models`), and the updated class-name registry. -/
def create_nested_structure (reg : List String) (parameters : List Param)
    (action : String) :
    Option (NestedModel × List (String × NestedModel) × List String) := do
  let rows ← parseRows parameters
  let d := firstPass rows
  let b := createArrayModels d action (createNormalModels d action reg)
  let fl := rows.foldl (fillRow b.pcn) ⟨wirePass d b, [], []⟩
  pure (⟨"Root", rootRefPass fl⟩, fl.cms, b.reg)

/-- `APIStructGenerator.generate_request_model` (source lines 532-544), the
structural core: register `f"{action}Request"`, build the nested structure,
rename the root.  (The source then renders the auxiliary models followed by
the root model to text; the record structure is what the claims concern.) -/
def generate_request_model (reg : List String) (action : String)
    (parameters : List Param) :
    Option (List (String × NestedModel) × NestedModel × List String) := do
  let class_name := action ++ "Request"
  let reg1 := register_class_name reg class_name
  let r ← create_nested_structure reg1 parameters action
  pure (r.2.1, ⟨class_name, r.1.fields⟩, r.2.2)

/-! ## `generate_response_model` (source lines 546-591) -/

/-- Python `"\n".join(lines)`. -/
def joinLines : List String → String
  | [] => ""
  | [s] => s
  | s :: rest => s ++ "\n" ++ joinLines rest

/-- One response field line (source lines 559-585): every key is read with
`.get` and a default, so nothing fails on a missing key. -/
def response_field_line (p : Param) : String :=
  let name := p.Name.getD ""
  let ref := p.ParameterTypeRef.getD ""
  let t0 := if ref ≠ "" then ref else get_python_type (p.TypeId.getD 1)
  let t1 := if p.IsArray.getD 0 = 1 then "list[" ++ t0 ++ "]" else t0
  "    " ++ to_snake_case name ++ ": Optional[" ++ t1 ++
    "] = Field(default=None, alias=\"" ++ name ++ "\")"

/-- `APIStructGenerator.generate_response_model` (source lines 546-591):
skip (returning the empty string) when the response class name was already
generated; otherwise register it and emit one line per parameter row (or
`pass` when there are none). -/
def generate_response_model (base_model_name : String) (reg : List String)
    (action : String) (parameters : List Param) : String × List String :=
  let class_name := action ++ "Response"
  if class_name ∈ reg then ("", reg)
  else
    let header := "class " ++ class_name ++ "(" ++ base_model_name ++ "):"
    let body :=
      if parameters = [] then ["    pass"]
      else parameters.map response_field_line
    (joinLines (header :: body), addToSetList reg class_name)

/-! ## The client-generation check of `main` (source lines 798-813) -/

/-- The client-generation options of `main` (source lines 737-776): `none`
models a flag `argparse` left as Python `None`. -/
structure CliArgs where
  client_output : Option String
  client_class_name : Option String
  service_name : Option String
  types_module : Option String
deriving DecidableEq, Repr

/-- Python falsiness of an optional string: `None` and `""` are falsy. -/
def pyFalsy : Option String → Bool
  | none => true
  | some s => decide (s = "")

/-- The client-generation dispatch of `main` (source lines 798-813):
validation runs only inside `if args.client_output:`; there,
`if not all(required_client_args)` raises a `ValueError` carrying exactly
the missing flag names in the fixed order of the list comprehension.
Result: `ok true` = a client is generated, `ok false` = client generation
is skipped, `error missing` = the `ValueError`. -/
def main_client_generation_check (args : CliArgs) : Except (List String) Bool :=
  if pyFalsy args.client_output then Except.ok false
  else if pyFalsy args.client_class_name || pyFalsy args.service_name ||
      pyFalsy args.types_module then
    Except.error
      ((if pyFalsy args.client_class_name then ["--client-class-name"] else []) ++
       (if pyFalsy args.service_name then ["--service-name"] else []) ++
       (if pyFalsy args.types_module then ["--types-module"] else []))
  else Except.ok true

/-- Invariant tying `path_class_names`, `class_models` and the registry
together during model creation (infrastructure for the reachability
theorem). -/
structure CreateInv (d : Discovery) (b : BuildSt) : Prop where
  linkage : ∀ p n, alGet b.pcn p = some n → alGet b.cms n = some ⟨n, []⟩
  inReg : ∀ p n, alGet b.pcn p = some n → n ∈ b.reg
  inj : ∀ p q n, alGet b.pcn p = some n → alGet b.pcn q = some n → p = q
  onto : ∀ n M, alGet b.cms n = some M →
    ∃ p, alGet b.pcn p = some n ∧ p ∈ d.nested_object_paths
  keys : ∀ p n, alGet b.pcn p = some n → p ∈ d.nested_object_paths

/-- Reachability of a class name from the action's root model by following
reference fields: a name is reachable when some root field's type string is
that name, or some field of an already-reachable model's type string is that
name. -/
inductive Reachable (cms : List (String × NestedModel)) (rootFields : List FieldInfo) :
    String → Prop
  | fromRoot {f : FieldInfo} {n : String} :
      f ∈ rootFields → f.type_str = n → Reachable cms rootFields n
  | step {m : String} {M : NestedModel} {f : FieldInfo} {n : String} :
      Reachable cms rootFields m → alGet cms m = some M → f ∈ M.fields →
      f.type_str = n → Reachable cms rootFields n

/-- The builder state after the two model-creation passes, as composed
inside `create_nested_structure`. -/
def buildOf (rows : List ParsedRow) (action : String) (reg : List String) : BuildSt :=
  createArrayModels (firstPass rows) action (createNormalModels (firstPass rows) action reg)

/-- The fill-pass state after folding every parsed row, as composed inside
`create_nested_structure`. -/
def fillOf (rows : List ParsedRow) (action : String) (reg : List String) : FillSt :=
  rows.foldl (fillRow (buildOf rows action reg).pcn)
    ⟨wirePass (firstPass rows) (buildOf rows action reg), [], []⟩


/-! ## Theorems -/

/-! ### Facts about `pyLowerChar` -/

theorem charToNat_inj {c d : Char} (h : c.toNat = d.toNat) : c = d :=
  Char.eq_of_val_eq (UInt32.ext h)

theorem toNat_ofNatAux (n : Nat) (h : n.isValidChar) :
    (Char.ofNatAux n h).toNat = n := rfl

theorem pyLowerChar_toNat (c : Char) :
    (pyLowerChar c).toNat =
      if 65 ≤ c.toNat ∧ c.toNat ≤ 90 then c.toNat + 32 else c.toNat := by
  unfold pyLowerChar
  by_cases h : 65 ≤ c.toNat ∧ c.toNat ≤ 90
  · rw [dif_pos h, if_pos h]
    exact toNat_ofNatAux _ _
  · rw [dif_neg h, if_neg h]

theorem pyLowerChar_not_upper (c : Char) : isUpperAZ (pyLowerChar c) = false := by
  have h := pyLowerChar_toNat c
  simp only [isUpperAZ, decide_eq_false_iff_not]
  by_cases hc : 65 ≤ c.toNat ∧ c.toNat ≤ 90
  · rw [if_pos hc] at h
    omega
  · rw [if_neg hc] at h
    omega

theorem pyLowerChar_idem (c : Char) : pyLowerChar (pyLowerChar c) = pyLowerChar c := by
  apply charToNat_inj
  have h := pyLowerChar_not_upper c
  simp only [isUpperAZ, decide_eq_false_iff_not] at h
  rw [pyLowerChar_toNat (pyLowerChar c), if_neg h]

theorem pyLowerChar_eq_underscore_iff (c : Char) : pyLowerChar c = '_' ↔ c = '_' := by
  constructor
  · intro h
    have ht : (pyLowerChar c).toNat = 95 := by rw [h]; rfl
    rw [pyLowerChar_toNat c] at ht
    by_cases hu : 65 ≤ c.toNat ∧ c.toNat ≤ 90
    · rw [if_pos hu] at ht
      omega
    · rw [if_neg hu] at ht
      exact charToNat_inj ht
  · intro h
    subst h
    rfl

/-! ### Idempotence of `to_snake_case` (claim C7) -/

theorem sub1_id : ∀ (l : List Char), (∀ c ∈ l, isUpperAZ c = false) → sub1 l = l
  | [], _ => rfl
  | [_], _ => rfl
  | [_, _], _ => rfl
  | c1 :: c2 :: c3 :: t, h => by
    have h1 : isUpperAZ c1 = false := h c1 (by simp)
    have ih := sub1_id (c2 :: c3 :: t) (fun c hc => h c (List.mem_cons_of_mem _ hc))
    simp [sub1, h1, ih]

theorem sub2_id : ∀ (l : List Char), (∀ c ∈ l, isUpperAZ c = false) → sub2 l = l
  | [], _ => rfl
  | [_], _ => rfl
  | c1 :: c2 :: t, h => by
    have h2 : isUpperAZ c2 = false := h c2 (by simp)
    have ih := sub2_id (c2 :: t) (fun c hc => h c (List.mem_cons_of_mem _ hc))
    simp [sub2, h2, ih]

theorem noDoubleUnd_cons (c : Char) (r : List Char) :
    noDoubleUnd (c :: r) = (!(decide (c = '_') && headUnd r) && noDoubleUnd r) := by
  cases r with
  | nil => simp [noDoubleUnd, headUnd]
  | cons r rs => simp [noDoubleUnd, headUnd]

theorem collapseAux_noDouble :
    ∀ (l : List Char) (b : Bool),
      noDoubleUnd (collapseAux b l) = true ∧
        (b = true → headUnd (collapseAux b l) = false)
  | [], _ => by simp [collapseAux, noDoubleUnd, headUnd]
  | c :: rest, b => by
    by_cases hc : c = '_'
    · subst hc
      cases b with
      | true =>
        have ih := collapseAux_noDouble rest true
        have hred : collapseAux true ('_' :: rest) = collapseAux true rest := by
          simp [collapseAux]
        rw [hred]
        exact ⟨ih.1, fun _ => ih.2 rfl⟩
      | false =>
        have ih := collapseAux_noDouble rest true
        have hh := ih.2 rfl
        have hred : collapseAux false ('_' :: rest) = '_' :: collapseAux true rest := by
          simp [collapseAux]
        rw [hred]
        constructor
        · rw [noDoubleUnd_cons, hh, ih.1]
          simp
        · intro h
          exact absurd h Bool.false_ne_true
    · have ih := collapseAux_noDouble rest false
      have hred : collapseAux b (c :: rest) = c :: collapseAux false rest := by
        simp [collapseAux, hc]
      rw [hred]
      constructor
      · rw [noDoubleUnd_cons, ih.1]
        simp [hc]
      · intro _
        simp [headUnd, hc]

theorem collapseAux_id :
    ∀ (l : List Char) (b : Bool),
      noDoubleUnd l = true → (b = true → headUnd l = false) → collapseAux b l = l
  | [], _, _, _ => rfl
  | c :: rest, b, hnd, hb => by
    rw [noDoubleUnd_cons] at hnd
    by_cases hc : c = '_'
    · subst hc
      have hbf : b = false := by
        cases b with
        | false => rfl
        | true => exact absurd (hb rfl) (by simp [headUnd])
      subst hbf
      simp only [decide_True, Bool.true_and, Bool.and_eq_true, Bool.not_eq_true'] at hnd
      have ih := collapseAux_id rest true hnd.2 (fun _ => hnd.1)
      simp [collapseAux, ih]
    · have ih := collapseAux_id rest false (by simp at hnd; exact hnd.2) (fun h => nomatch h)
      simp [collapseAux, hc, ih]

theorem noDouble_map_pyLower :
    ∀ (l : List Char), noDoubleUnd l = true → noDoubleUnd (l.map pyLowerChar) = true
  | [], _ => rfl
  | [c], _ => rfl
  | c1 :: c2 :: t, h => by
    simp only [noDoubleUnd, Bool.and_eq_true, Bool.not_eq_true'] at h
    have ih := noDouble_map_pyLower (c2 :: t) h.2
    simp only [List.map_cons] at ih ⊢
    simp only [noDoubleUnd, Bool.and_eq_true, Bool.not_eq_true']
    refine ⟨?_, ih⟩
    by_cases h1 : c1 = '_'
    · by_cases h2 : c2 = '_'
      · simp [h1, h2] at h
      · simp [(pyLowerChar_eq_underscore_iff c2).not.2 h2]
    · simp [(pyLowerChar_eq_underscore_iff c1).not.2 h1]

theorem map_pyLower_no_upper (l : List Char) :
    ∀ c ∈ l.map pyLowerChar, isUpperAZ c = false := by
  intro c hc
  obtain ⟨d, _, rfl⟩ := List.mem_map.1 hc
  exact pyLowerChar_not_upper d

theorem map_pyLower_idem (l : List Char) :
    (l.map pyLowerChar).map pyLowerChar = l.map pyLowerChar := by
  rw [List.map_map]
  exact List.map_congr_left (fun c _ => pyLowerChar_idem c)

/-- C7: the name-casing transform `to_snake_case` is idempotent — applying it
to its own output returns that output unchanged (it is deterministic by
construction, being a pure function). -/
theorem c7_to_snake_case_idempotent (s : String) :
    to_snake_case (to_snake_case s) = to_snake_case s := by
  by_cases h0 : s = ""
  · subst h0
    rfl
  · have inner : to_snake_case s =
        ⟨(collapseUnd (sub2 (sub1 s.data))).map pyLowerChar⟩ := by
      unfold to_snake_case
      rw [if_neg h0]
    rw [inner]
    set out : List Char := (collapseUnd (sub2 (sub1 s.data))).map pyLowerChar with hout
    by_cases h1 : (⟨out⟩ : String) = ""
    · unfold to_snake_case
      rw [if_pos h1]
    · unfold to_snake_case
      rw [if_neg h1]
      have hdata : (⟨out⟩ : String).data = out := rfl
      rw [hdata]
      have hup : ∀ c ∈ out, isUpperAZ c = false := by
        rw [hout]
        exact map_pyLower_no_upper _
      have hnd : noDoubleUnd out = true := by
        rw [hout]
        exact noDouble_map_pyLower _ (collapseAux_noDouble _ false).1
      rw [sub1_id out hup, sub2_id out hup]
      unfold collapseUnd
      rw [collapseAux_id out false hnd (fun h => nomatch h)]
      rw [hout, map_pyLower_idem]

/-! ### Properties of `sanitize_docstring` (claim C10) -/

theorem noAdjWs_cons (c : Char) (r : List Char) :
    noAdjWs (c :: r) = (!(isPyWs c && headWs r) && noAdjWs r) := by
  cases r with
  | nil => simp [noAdjWs, headWs]
  | cons r rs => simp [noAdjWs, headWs]

theorem noAdjWs_of_all_nonWs :
    ∀ (l : List Char), (∀ c ∈ l, isPyWs c = false) → noAdjWs l = true
  | [], _ => rfl
  | [c], _ => rfl
  | c1 :: c2 :: t, h => by
    have h1 : isPyWs c1 = false := h c1 (by simp)
    have ih := noAdjWs_of_all_nonWs (c2 :: t) (fun c hc => h c (List.mem_cons_of_mem _ hc))
    simp only [noAdjWs] at ih ⊢
    simp [h1, ih]

theorem noAdjWs_append_of_nonWs :
    ∀ (t r : List Char), (∀ c ∈ t, isPyWs c = false) → noAdjWs r = true →
      noAdjWs (t ++ r) = true
  | [], r, _, hr => hr
  | c :: t, r, ht, hr => by
    have hc : isPyWs c = false := ht c (by simp)
    have ih := noAdjWs_append_of_nonWs t r (fun d hd => ht d (List.mem_cons_of_mem _ hd)) hr
    rw [List.cons_append, noAdjWs_cons, hc, ih]
    simp

theorem splitWsAux_tokens :
    ∀ (l cur : List Char), (∀ c ∈ cur, isPyWs c = false) →
      ∀ t ∈ splitWsAux cur l, t ≠ [] ∧ ∀ c ∈ t, isPyWs c = false
  | [], cur, hcur => by
    intro t ht
    by_cases h : cur = []
    · simp [splitWsAux, h] at ht
    · simp only [splitWsAux, if_neg h, List.mem_singleton] at ht
      subst ht
      refine ⟨by simpa using h, ?_⟩
      intro c hc
      exact hcur c (List.mem_reverse.1 hc)
  | c :: rest, cur, hcur => by
    intro t ht
    by_cases hws : isPyWs c = true
    · by_cases h : cur = []
      · simp only [splitWsAux, hws, if_pos rfl, if_true, h, if_pos rfl] at ht
        exact splitWsAux_tokens rest [] (by simp) t (by simpa using ht)
      · simp only [splitWsAux, hws, if_true, if_neg h, List.mem_cons] at ht
        rcases ht with ht | ht
        · subst ht
          refine ⟨by simpa using h, ?_⟩
          intro d hd
          exact hcur d (List.mem_reverse.1 hd)
        · exact splitWsAux_tokens rest [] (by simp) t ht
    · have hws' : isPyWs c = false := by simpa using hws
      simp only [splitWsAux, hws', if_false, Bool.false_eq_true] at ht
      refine splitWsAux_tokens rest (c :: cur) ?_ t ht
      intro d hd
      rcases List.mem_cons.1 hd with rfl | hd
      · exact hws'
      · exact hcur d hd

theorem headWs_of_head_nonWs (t r : List Char) (h : ∀ c ∈ t, isPyWs c = false)
    (hne : t ≠ []) : headWs (t ++ r) = false := by
  cases t with
  | nil => exact absurd rfl hne
  | cons c t => exact h c (by simp)

theorem joinSp_good :
    ∀ (ts : List (List Char)),
      (∀ t ∈ ts, t ≠ [] ∧ ∀ c ∈ t, isPyWs c = false) →
      noAdjWs (joinSp ts) = true ∧ headWs (joinSp ts) = false ∧
        allSpOrNonWs (joinSp ts) = true
  | [], _ => by refine ⟨rfl, rfl, rfl⟩
  | [t], h => by
    obtain ⟨hne, hnw⟩ := h t (by simp)
    refine ⟨noAdjWs_of_all_nonWs t hnw, ?_, ?_⟩
    · cases t with
      | nil => exact absurd rfl hne
      | cons c t => simpa [headWs] using hnw c (by simp)
    · simp only [allSpOrNonWs, List.all_eq_true]
      intro c hc
      simp [hnw c hc]
  | t :: t2 :: ts, h => by
    obtain ⟨hne, hnw⟩ := h t (by simp)
    have ih := joinSp_good (t2 :: ts) (fun u hu => h u (List.mem_cons_of_mem _ hu))
    have hj : joinSp (t :: t2 :: ts) = t ++ ' ' :: joinSp (t2 :: ts) := rfl
    rw [hj]
    have hhead2 : headWs (joinSp (t2 :: ts)) = false := ih.2.1
    have hadjtail : noAdjWs (' ' :: joinSp (t2 :: ts)) = true := by
      rw [noAdjWs_cons, hhead2, ih.1]
      simp
    refine ⟨noAdjWs_append_of_nonWs t _ hnw hadjtail, ?_, ?_⟩
    · exact headWs_of_head_nonWs t _ hnw hne
    · simp only [allSpOrNonWs, List.all_append, List.all_cons, Bool.and_eq_true,
        List.all_eq_true]
      refine ⟨?_, by simp, ?_⟩
      · intro c hc
        simp [hnw c hc]
      · intro c hc
        have := ih.2.2
        simp only [allSpOrNonWs, List.all_eq_true] at this
        exact this c hc

theorem noNlCr_of_allSpOrNonWs (l : List Char) (h : allSpOrNonWs l = true) :
    noNlCr l = true := by
  simp only [allSpOrNonWs, List.all_eq_true] at h
  simp only [noNlCr, List.all_eq_true]
  intro c hc
  have := h c hc
  by_cases hn : c = '\n'
  · subst hn
    simp [isPyWs] at this
  · by_cases hr : c = '\r'
    · subst hr
      simp [isPyWs] at this
    · simp [hn, hr]

/-- C10 (amended): `sanitize_docstring` always returns a string with no
newline or carriage-return character and no two adjacent whitespace
characters.  (The original claim's further conjunct — that the result never
contains three consecutive double quotes — is false; see the
counterexample theorem.) -/
theorem c10_sanitize_whitespace (s : String) :
    noAdjWs (sanitize_docstring s).data = true ∧
      noNlCr (sanitize_docstring s).data = true := by
  by_cases h0 : s = ""
  · subst h0
    exact ⟨rfl, rfl⟩
  · have hred : (sanitize_docstring s).data =
        joinSp (pySplitWs (((replaceTripleQuote s.data).map crToSpace).map nlToSpace)) := by
      unfold sanitize_docstring
      rw [if_neg h0]
    rw [hred]
    have htok := splitWsAux_tokens
      (((replaceTripleQuote s.data).map crToSpace).map nlToSpace) [] (by simp)
    have hg := joinSp_good _ htok
    exact ⟨hg.1, noNlCr_of_allSpOrNonWs _ hg.2.2⟩

/-- C10 (counterexample): on the input of five consecutive double quotes the
output of `sanitize_docstring` still contains three consecutive double-quote
characters, refuting the claim that the sanitized text can never contain
`"""`. -/
theorem c10_counterexample :
    hasTripleQuote (sanitize_docstring "\"\"\"\"\"").data = true := by decide

/-! ### Path classification (claims C2, C3) -/

/-- C2 (counterexample): on the path `"A.N.B.N"` — which both ends in the
array marker and contains an interior marker — `parse_field_path` returns
`is_array_item = true` AND `is_simple_array = true`, refuting the claim that
the two boolean outputs are never both true (i.e. that exactly one of the
four classifications holds for every path). -/
theorem c2_counterexample :
    parse_field_path "A.N.B.N" = some (["A"], "B", true, true) := by decide

/-- C2 (amended): `parse_field_path` is a pure function (immediate from the
embedding), and for every path that does not BOTH end in the array marker
`N` and contain an interior `N`, the two boolean flags are never both true;
moreover a root classification (empty ownership path) always carries both
flags false, so on such paths exactly one of
root / simple-array / array-item / plain-nested holds. -/
theorem c2_flags_exclusive (s : String) (pp : List String) (leaf : String) (ai sa : Bool)
    (h : parse_field_path s = some (pp, leaf, ai, sa))
    (hx : ¬((pySplitDot s).getLast? = some "N" ∧ "N" ∈ (pySplitDot s).dropLast)) :
    (pp = [] → ai = false ∧ sa = false) ∧ ¬(ai = true ∧ sa = true) := by
  unfold parse_field_path at h
  dsimp only at h
  split at h
  · exact absurd h (by simp)
  · rename_i only heq
    injection h with h1
    injection h1 with ha hb
    injection hb with hb1 hb2
    injection hb2 with hc hd
    subst hc hd
    exact ⟨fun _ => ⟨rfl, rfl⟩, by simp⟩
  · rename_i p q rest heq
    injection h with h1
    injection h1 with ha hb
    injection hb with hb1 hb2
    injection hb2 with hc hd
    constructor
    · intro hpp
      rw [← ha] at hpp
      simp at hpp
    · rintro ⟨hai, hsa⟩
      rw [← hc] at hai
      rw [← hd] at hsa
      apply hx
      constructor
      · simp only [Bool.and_eq_true, decide_eq_true_eq] at hsa
        exact hsa.2
      · by_cases hlen : 1 < (pySplitDot s).length
        · rw [if_pos hlen] at hai
          simpa using hai
        · rw [if_neg hlen] at hai
          exact absurd hai (by simp)

theorem c2_flags_exclusive_witness :
    parse_field_path "A.B.C" = some (["A", "B"], "C", false, false) ∧
      ¬(false = true ∧ false = true) :=
  ⟨by decide, (c2_flags_exclusive "A.B.C" ["A", "B"] "C" false false
    (by decide) (by decide)).2⟩

/-- C3: evaluation of the classifier at the claim's two inputs.  The path
`"A.B.C"` behaves as claimed, but for the two-segment path `"X.N"` the code
returns `is_simple_array = false` (the `len(clean_parts) == 1` early return
on line 281 discards the flag computed on line 269), classifying it as a
plain root field, whereas the claim (and the unreachable root-level
simple-array branch at lines 450-460 of `create_nested_structure`, which
documents the intended behavior) requires `isSimpleArrayField = true`. -/
theorem c3_parse_eval :
    parse_field_path "A.B.C" = some (["A", "B"], "C", false, false) ∧
      parse_field_path "X.N" = some ([], "X", false, false) := by decide

/-! ### Name uniqueness (claim C5) -/

theorem digitChar_toNat (d : Nat) : (digitChar d).toNat = 48 + d % 10 := rfl

theorem natToDecimalAux_ne_nil : ∀ (fuel n : Nat), n < fuel → natToDecimalAux n fuel ≠ []
  | fuel + 1, n, _ => by
    unfold natToDecimalAux
    by_cases h : n < 10
    · rw [if_pos h]
      simp
    · rw [if_neg h]
      simp

theorem natToDecimalAux_inj : ∀ (f1 n m f2 : Nat), n < f1 → m < f2 →
    natToDecimalAux n f1 = natToDecimalAux m f2 → n = m
  | 0, _, _, _, hn, _, _ => absurd hn (by omega)
  | f1 + 1, n, m, f2, hn, hm, heq => by
    cases f2 with
    | zero => omega
    | succ f2 =>
      unfold natToDecimalAux at heq
      by_cases h1 : n < 10
      · by_cases h2 : m < 10
        · rw [if_pos h1, if_pos h2] at heq
          injection heq with he _
          have ht : (digitChar n).toNat = (digitChar m).toNat := by rw [he]
          rw [digitChar_toNat, digitChar_toNat] at ht
          omega
        · rw [if_pos h1, if_neg h2] at heq
          exfalso
          cases hA : natToDecimalAux (m / 10) f2 with
          | nil => exact natToDecimalAux_ne_nil f2 (m / 10) (by omega) hA
          | cons a as =>
            rw [hA] at heq
            have := congrArg List.length heq
            simp at this
      · by_cases h2 : m < 10
        · rw [if_neg h1, if_pos h2] at heq
          exfalso
          cases hA : natToDecimalAux (n / 10) f1 with
          | nil => exact natToDecimalAux_ne_nil f1 (n / 10) (by omega) hA
          | cons a as =>
            rw [hA] at heq
            have := congrArg List.length heq
            simp at this
        · rw [if_neg h1, if_neg h2] at heq
          obtain ⟨hA, hB⟩ := List.append_inj' heq (by simp)
          have hd : (digitChar (n % 10)).toNat = (digitChar (m % 10)).toNat := by
            injection hB with hB1 _
            rw [hB1]
          rw [digitChar_toNat, digitChar_toNat] at hd
          have hq : n / 10 = m / 10 :=
            natToDecimalAux_inj f1 (n / 10) (m / 10) f2 (by omega) (by omega) hA
          omega

theorem natToDecimal_inj {n m : Nat} (h : natToDecimal n = natToDecimal m) : n = m := by
  have hd : natToDecimalAux n (n + 1) = natToDecimalAux m (m + 1) :=
    congrArg String.data h
  exact natToDecimalAux_inj (n + 1) n m (m + 1) (by omega) (by omega) hd

theorem candidate_name_inj (base action : String) {i j : Nat} (hi : 2 ≤ i) (hj : 2 ≤ j)
    (h : candidate_name base action i = candidate_name base action j) : i = j := by
  unfold candidate_name at h
  rw [if_neg (by omega), if_neg (by omega)] at h
  have hd := congrArg String.data h
  simp only [String.data_append] at hd
  have hc := List.append_cancel_left hd
  exact natToDecimalAux_inj (i + 1) i j (j + 1) (by omega) (by omega) hc

theorem qualifyAux_not_mem (st : List String) (base action : String) :
    ∀ (fuel i : Nat), 2 ≤ i →
      (¬ ∀ k, k < fuel → candidate_name base action (i + k) ∈ st) →
      qualifyAux st base action i fuel ∉ st
  | 0, i, _, hall => absurd (fun k hk => absurd hk (by omega)) hall
  | fuel + 1, i, hi, hall => by
    unfold qualifyAux
    by_cases hc : candidate_name base action i ∈ st
    · rw [if_pos hc, if_neg (by omega)]
      apply qualifyAux_not_mem st base action fuel (i + 1) (by omega)
      intro hall'
      apply hall
      intro k hk
      cases k with
      | zero => simpa using hc
      | succ k =>
        have hx := hall' k (by omega)
        rw [show i + (k + 1) = i + 1 + k by omega]
        exact hx
    · rw [if_neg hc]
      exact hc

theorem qualify_fresh_helper (st : List String) (base action : String) :
    (qualify_model_name st base action).1 ∉ st := by
  have h0 : (qualify_model_name st base action).1 =
      (if candidate_name base action 0 ∈ st then
        qualifyAux st base action 2 (st.length + 1)
      else candidate_name base action 0) := rfl
  rw [h0]
  by_cases hc0 : candidate_name base action 0 ∈ st
  · rw [if_pos hc0]
    apply qualifyAux_not_mem st base action (st.length + 1) 2 (by omega)
    intro hall
    have hnd : ((List.range (st.length + 1)).map
        (fun k => candidate_name base action (2 + k))).Nodup := by
      apply List.Nodup.map_on _ (List.nodup_range _)
      intro x _ y _ hxy
      have := candidate_name_inj base action (i := 2 + x) (j := 2 + y)
        (by omega) (by omega) hxy
      omega
    have hsub : ∀ x ∈ (List.range (st.length + 1)).map
        (fun k => candidate_name base action (2 + k)), x ∈ st := by
      intro x hx
      obtain ⟨k, hk, rfl⟩ := List.mem_map.1 hx
      exact hall k (List.mem_range.1 hk)
    have h1 := List.toFinset_card_of_nodup hnd
    have h2 : ((List.range (st.length + 1)).map
        (fun k => candidate_name base action (2 + k))).toFinset ⊆ st.toFinset := by
      intro x hx
      exact List.mem_toFinset.2 (hsub x (List.mem_toFinset.1 hx))
    have h3 := List.toFinset_card_le (l := st)
    have h4 := Finset.card_le_card h2
    simp only [List.length_map, List.length_range] at h1
    omega
  · rw [if_neg hc0]
    exact hc0

/-- C5: `qualify_model_name` never returns a name already in the
generated-names registry; it registers the returned name (the registry after
the call is exactly the old registry with the fresh name appended, so it
grows monotonically and never shrinks within a run).  Together with the
registration this means no two calls in one run can ever return the same
name. -/
theorem c5_qualify_model_name_fresh (st : List String) (base action : String) :
    (qualify_model_name st base action).1 ∉ st ∧
      (qualify_model_name st base action).2 =
        st ++ [(qualify_model_name st base action).1] := by
  refine ⟨qualify_fresh_helper st base action, ?_⟩
  have h := qualify_fresh_helper st base action
  show register_class_name st (qualify_model_name st base action).1 = _
  unfold register_class_name
  rw [if_neg h]

/-! ### Array-object classification (claim C1) -/

theorem alMem_alSet {α : Type} (m : List (String × α)) (k : String) (v : α) (p : String) :
    alMem (alSet m k v) p = (alMem m p || decide (k = p)) := by
  simp only [alMem]
  induction m with
  | nil =>
    by_cases h : k = p <;> simp [alSet, alGet, h]
  | cons kv rest ih =>
    obtain ⟨k', v'⟩ := kv
    by_cases hk : k' = k
    · subst hk
      rw [alSet, if_pos rfl]
      by_cases hp : k' = p
      · simp [alGet, hp]
      · simp [alGet, hp]
    · rw [alSet, if_neg hk]
      by_cases hp : k' = p
      · simp [alGet, hp]
      · simp [alGet, hp, ih]

theorem alMem_append_single {α : Type} (m : List (String × α)) (k : String) (v : α)
    (p : String) :
    alMem (m ++ [(k, v)]) p = (alMem m p || decide (k = p)) := by
  simp only [alMem]
  induction m with
  | nil =>
    by_cases h : k = p <;> simp [alGet, h]
  | cons kv rest ih =>
    obtain ⟨k', v'⟩ := kv
    by_cases hp : k' = p
    · simp [alGet, hp]
    · simp [alGet, hp, ih]

theorem alMem_alAddToSet (m : List (String × List String)) (k v : String) (p : String) :
    alMem (alAddToSet m k v) p = (alMem m p || decide (k = p)) := by
  unfold alAddToSet
  cases h : alGet m k with
  | none => exact alMem_append_single m k [v] p
  | some s => exact alMem_alSet m k (addToSetList s v) p

theorem alGet_filter_key {α : Type} (l : List (String × α)) (pred : String → Bool)
    (k : String) :
    alGet (l.filter (fun kv => pred kv.1)) k =
      (if pred k = true then alGet l k else none) := by
  induction l with
  | nil => simp [alGet]
  | cons kv rest ih =>
    obtain ⟨k', v'⟩ := kv
    by_cases hpk : pred k' = true
    · rw [List.filter_cons_of_pos (by simpa using hpk)]
      by_cases hk : k' = k
      · subst hk
        simp [alGet, hpk]
      · simp [alGet, hk, ih]
    · rw [List.filter_cons_of_neg (by simpa using hpk)]
      by_cases hk : k' = k
      · subst hk
        simp [alGet, ih, hpk]
      · simp [alGet, hk, ih]

theorem recordRow_arrayFields (d : Discovery) (r : ParsedRow) (p : String) :
    alMem ((recordRow d r).array_fields) p =
      (alMem d.array_fields p ||
        (decide (r.2.1 ≠ []) && r.2.2.2.1 && decide (joinDot r.2.1 = p))) := by
  unfold recordRow
  by_cases hlen : 0 < r.2.1.length
  · rw [if_pos hlen]
    have hne : decide (r.2.1 ≠ []) = true := by
      simp [List.length_pos] at hlen
      simp [hlen]
    cases hai : r.2.2.2.1 with
    | true =>
      simp only [hai, if_pos rfl, hne]
      simp [alMem_alAddToSet]
    | false =>
      simp [hai]
  · rw [if_neg hlen]
    have hne : r.2.1 = [] := by
      simpa using hlen
    simp [hne]

theorem recordRow_normalFields (d : Discovery) (r : ParsedRow) (p : String) :
    alMem ((recordRow d r).normal_fields) p =
      (alMem d.normal_fields p ||
        (decide (r.2.1 ≠ []) && !r.2.2.2.1 && decide (joinDot r.2.1 = p))) := by
  unfold recordRow
  by_cases hlen : 0 < r.2.1.length
  · rw [if_pos hlen]
    have hne : decide (r.2.1 ≠ []) = true := by
      simp [List.length_pos] at hlen
      simp [hlen]
    cases hai : r.2.2.2.1 with
    | true =>
      simp [hai]
    | false =>
      simp only [hai, Bool.false_eq_true, if_neg, hne]
      simp [alMem_alAddToSet]
  · rw [if_neg hlen]
    have hne : r.2.1 = [] := by
      simpa using hlen
    simp [hne]

theorem foldRecord_arrayFields (rows : List ParsedRow) :
    ∀ (d : Discovery) (p : String),
      alMem ((rows.foldl recordRow d).array_fields) p =
        (alMem d.array_fields p ||
          rows.any (fun r => decide (r.2.1 ≠ []) && r.2.2.2.1 &&
            decide (joinDot r.2.1 = p))) := by
  induction rows with
  | nil => simp
  | cons r rest ih =>
    intro d p
    simp only [List.foldl_cons, List.any_cons]
    rw [ih (recordRow d r) p, recordRow_arrayFields]
    cases alMem d.array_fields p <;> simp [Bool.or_assoc]

theorem foldRecord_normalFields (rows : List ParsedRow) :
    ∀ (d : Discovery) (p : String),
      alMem ((rows.foldl recordRow d).normal_fields) p =
        (alMem d.normal_fields p ||
          rows.any (fun r => decide (r.2.1 ≠ []) && !r.2.2.2.1 &&
            decide (joinDot r.2.1 = p))) := by
  induction rows with
  | nil => simp
  | cons r rest ih =>
    intro d p
    simp only [List.foldl_cons, List.any_cons]
    rw [ih (recordRow d r) p, recordRow_normalFields]
    cases alMem d.normal_fields p <;> simp [Bool.or_assoc]

theorem arrayObjects_mem (rows : List ParsedRow) (p : String) :
    alMem (array_objects_of (firstPass rows)) p =
      (rows.any (fun r => decide (r.2.1 ≠ []) && r.2.2.2.1 &&
          decide (joinDot r.2.1 = p)) &&
        !rows.any (fun r => decide (r.2.1 ≠ []) && !r.2.2.2.1 &&
          decide (joinDot r.2.1 = p))) := by
  have hf := alGet_filter_key (firstPass rows).array_fields
    (fun x => !alMem (firstPass rows).normal_fields x) p
  have hA : alMem (firstPass rows).array_fields p =
      rows.any (fun r => decide (r.2.1 ≠ []) && r.2.2.2.1 &&
        decide (joinDot r.2.1 = p)) := by
    unfold firstPass
    rw [foldRecord_arrayFields rows ⟨[], [], []⟩ p]
    simp [alMem, alGet]
  have hN : alMem (firstPass rows).normal_fields p =
      rows.any (fun r => decide (r.2.1 ≠ []) && !r.2.2.2.1 &&
        decide (joinDot r.2.1 = p)) := by
    unfold firstPass
    rw [foldRecord_normalFields rows ⟨[], [], []⟩ p]
    simp [alMem, alGet]
  have hmain : alMem (array_objects_of (firstPass rows)) p =
      (if (!alMem (firstPass rows).normal_fields p) = true
       then alGet (firstPass rows).array_fields p else none).isSome :=
    congrArg Option.isSome hf
  rw [hmain, hN]
  cases h : rows.any (fun r => decide (r.2.1 ≠ []) && !r.2.2.2.1 &&
      decide (joinDot r.2.1 = p)) with
  | true => simp
  | false =>
    simp only [Bool.not_false, if_pos rfl, Bool.and_true]
    exact hA

/-- C1: an ownership path is classified as an array-object path (and hence
emitted as an `Item` model whose reference field on the parent is
array-wrapped — the wiring pass sets that reference's `is_array` to exactly
this membership, see `wirePass`) if and only if at least one row is
classified array-item under it and no row is recorded under it in the
other bucket ("plain" here means: carrying a non-empty ownership path
without the array-item classification, which is how the discovery pass
buckets rows — simple-array rows fall into that bucket as well, per the
spec's discovery-pass description).  Moreover every array-item leaf is
attached as an ordinary non-array field (`aiLeafField` always has
`is_array = false`), which is what happens to the array-marked children of
a mixed path: they become plain fields of the path's non-array node. -/
theorem c1_array_object_classification (rows : List ParsedRow) (p : String) :
    (alMem (array_objects_of (firstPass rows)) p = true ↔
      (∃ r ∈ rows, r.2.1 ≠ [] ∧ r.2.2.2.1 = true ∧ joinDot r.2.1 = p) ∧
        ¬ ∃ r ∈ rows, r.2.1 ≠ [] ∧ r.2.2.2.1 = false ∧ joinDot r.2.1 = p) ∧
    ∀ r : ParsedRow, (aiLeafField r).is_array = false := by
  refine ⟨?_, fun r => rfl⟩
  rw [arrayObjects_mem rows p, Bool.and_eq_true, Bool.not_eq_true']
  constructor
  · rintro ⟨h1, h2⟩
    constructor
    · obtain ⟨r, hr, hpred⟩ := List.any_eq_true.1 h1
      simp only [Bool.and_eq_true, decide_eq_true_eq] at hpred
      exact ⟨r, hr, hpred.1.1, hpred.1.2, hpred.2⟩
    · rintro ⟨r, hr, hne, hai, hjoin⟩
      have hx := (List.any_eq_false.1 h2) r hr
      simp only [Bool.and_eq_true, decide_eq_true_eq, Bool.not_eq_true',
        not_and] at hx
      exact hx ⟨hne, hai⟩ hjoin
  · rintro ⟨⟨r, hr, hne, hai, hjoin⟩, hno⟩
    constructor
    · refine List.any_eq_true.2 ⟨r, hr, ?_⟩
      simp [hne, hai, hjoin]
    · refine List.any_eq_false.2 ?_
      intro x hx
      by_contra hb
      simp only [Bool.and_eq_true, decide_eq_true_eq, Bool.not_eq_true'] at hb
      exact hno ⟨x, hx, hb.1.1, hb.1.2, hb.2⟩

/-! ### The CreateAgent scenario (claim C6) -/

/-- C6: compiling action `"CreateAgent"` with exactly the three request rows
`Name` (type 1, required), `Envs.N.Key` (type 1, optional), `Envs.N.Value`
(type 1, optional), starting from a registry holding only the base model
name, produces exactly two record types: the root `CreateAgentRequest` with
a required scalar string field `name` and an optional array-valued field
`envs` of the generated item type, and the item type
`EnvsItemForCreateAgent` with the two optional scalar string fields `key`
and `value`. -/
theorem c6_create_agent_scenario :
    generate_request_model ["AgentKitBaseModel"] "CreateAgent"
      [⟨some "Name", some 1, some 1, none, none, none⟩,
       ⟨some "Envs.N.Key", some 1, some 0, none, none, none⟩,
       ⟨some "Envs.N.Value", some 1, some 0, none, none, none⟩] =
    some ([("EnvsItemForCreateAgent",
            ⟨"EnvsItemForCreateAgent",
             [⟨"Key", "key", "str", false, false, ""⟩,
              ⟨"Value", "value", "str", false, false, ""⟩]⟩)],
          ⟨"CreateAgentRequest",
           [⟨"Name", "name", "str", true, false, ""⟩,
            ⟨"Envs", "envs", "EnvsItemForCreateAgent", false, true, ""⟩]⟩,
          ["AgentKitBaseModel", "CreateAgentRequest", "EnvsItemForCreateAgent"]) := by
  decide

/-! ### Missing `Name` keys (claim C8) -/

theorem parseRows_none_of_missing :
    ∀ params : List Param, (∃ p ∈ params, p.Name = none) → parseRows params = none
  | [], h => by simp at h
  | q :: qs, h => by
    rcases h with ⟨p, hp, hn⟩
    rcases List.mem_cons.1 hp with rfl | hp'
    · simp [parseRows, hn]
    · have ih := parseRows_none_of_missing qs ⟨p, hp', hn⟩
      cases hq : q.Name with
      | none => simp [parseRows, hq]
      | some n =>
        cases hpf : parse_field_path n with
        | none => simp [parseRows, hq, hpf]
        | some r => simp [parseRows, hq, hpf, ih]

/-- C8 (amended): on the request side the claim holds — a parameter row
lacking its `Name` key makes `create_nested_structure` fail (`KeyError`),
producing no output.  (On the response side it does not hold; see the
counterexample theorem.) -/
theorem c8_request_missing_name_fails (reg : List String) (params : List Param)
    (action : String) (h : ∃ p ∈ params, p.Name = none) :
    create_nested_structure reg params action = none := by
  unfold create_nested_structure
  rw [parseRows_none_of_missing params h]
  rfl

theorem c8_request_missing_name_fails_witness :
    (∃ p ∈ [(⟨none, some 1, none, none, none, none⟩ : Param)], p.Name = none) ∧
      create_nested_structure [] [⟨none, some 1, none, none, none, none⟩] "X" = none :=
  ⟨⟨⟨none, some 1, none, none, none, none⟩, by simp, rfl⟩,
   c8_request_missing_name_fails [] [⟨none, some 1, none, none, none, none⟩] "X"
     ⟨⟨none, some 1, none, none, none, none⟩, by simp, rfl⟩⟩

/-- C8 (counterexample): on the response side a row lacking `Name` is NOT a
fatal error — `generate_response_model` reads every key with `.get` and
emits a (malformed) field with empty identifier and empty alias, so model
generation produces output for that row instead of failing. -/
theorem c8_counterexample :
    generate_response_model "AgentKitBaseModel" [] "GetAgent"
      [⟨none, some 1, none, none, none, none⟩] =
    ("class GetAgentResponse(AgentKitBaseModel):\n    : Optional[str] = Field(default=None, alias=\"\")",
     ["GetAgentResponse"]) := by decide

/-! ### Client-generation argument validation (claim C9) -/

/-- C9 (counterexample): supplying `--client-class-name` without
`--client-output` (and without the other two flags) is NOT a fatal
configuration error — the driver never enters the validation branch (it is
guarded by `if args.client_output:`) and silently skips client generation,
refuting the claim that any partial specification of {client type name,
service name, types-module} fails. -/
theorem c9_counterexample :
    main_client_generation_check ⟨none, some "AgentkitMCP", none, none⟩ =
      Except.ok false := rfl

/-- C9 (amended): only when the client output path is supplied (truthy) does
the driver validate the client-generation flags; in that case, if any of
{client type name, service name, types-module} is missing or empty, it
fails with a `ValueError` whose payload lists exactly the missing flags (in
the fixed order client-class-name, service-name, types-module). -/
theorem c9_client_args_check (args : CliArgs)
    (hout : pyFalsy args.client_output = false)
    (hmiss : (pyFalsy args.client_class_name || pyFalsy args.service_name ||
      pyFalsy args.types_module) = true) :
    ∃ missing : List String,
      main_client_generation_check args = Except.error missing ∧
      missing ≠ [] ∧
      ("--client-class-name" ∈ missing ↔ pyFalsy args.client_class_name = true) ∧
      ("--service-name" ∈ missing ↔ pyFalsy args.service_name = true) ∧
      ("--types-module" ∈ missing ↔ pyFalsy args.types_module = true) := by
  refine ⟨(if pyFalsy args.client_class_name then ["--client-class-name"] else []) ++
      (if pyFalsy args.service_name then ["--service-name"] else []) ++
      (if pyFalsy args.types_module then ["--types-module"] else []), ?_, ?_, ?_, ?_, ?_⟩
  · unfold main_client_generation_check
    rw [hout, hmiss]
    simp
  all_goals
    cases hc : pyFalsy args.client_class_name <;>
      cases hs : pyFalsy args.service_name <;>
        cases ht : pyFalsy args.types_module <;>
          simp_all

theorem c9_client_args_check_witness :
    pyFalsy (some "client.py") = false ∧
      (pyFalsy (some "AgentkitMCP") || pyFalsy (none : Option String) ||
        pyFalsy (none : Option String)) = true ∧
      ∃ missing : List String,
        main_client_generation_check ⟨some "client.py", some "AgentkitMCP", none, none⟩ =
          Except.error missing ∧
        missing ≠ [] ∧
        ("--client-class-name" ∈ missing ↔ pyFalsy (some "AgentkitMCP") = true) ∧
        ("--service-name" ∈ missing ↔ pyFalsy (none : Option String) = true) ∧
        ("--types-module" ∈ missing ↔ pyFalsy (none : Option String) = true) :=
  ⟨rfl, rfl,
   c9_client_args_check ⟨some "client.py", some "AgentkitMCP", none, none⟩ rfl rfl⟩

/-! ### Reachability (claim C4): counterexample -/

/-- C4 (counterexample): on a field list whose only row is the nested
simple-array path `"A.B.N"`, the builder creates the auxiliary model
`AForAct` for ownership path `A` and attaches the array field `b` to it,
but the simple-array branch of the field pass never records a root
reference, so the root model ends up with no fields at all and `AForAct` is
not reachable from the root — refuting the claim that every produced
ModelNode is reachable from the action's root node. -/
theorem c4_counterexample :
    create_nested_structure [] [⟨some "A.B.N", none, none, none, none, none⟩] "Act" =
      some (⟨"Root", []⟩,
        [("AForAct", ⟨"AForAct", [⟨"B", "b", "str", false, true, ""⟩]⟩)],
        ["AForAct"]) ∧
      ¬ Reachable [("AForAct", ⟨"AForAct", [⟨"B", "b", "str", false, true, ""⟩]⟩)]
          [] "AForAct" := by
  refine ⟨by decide, ?_⟩
  have hall : ∀ n, ¬ Reachable
      [("AForAct", ⟨"AForAct", [⟨"B", "b", "str", false, true, ""⟩]⟩)] [] n := by
    intro n h
    induction h with
    | fromRoot hf _ => exact absurd hf (List.not_mem_nil _)
    | step _ _ _ _ ih => exact ih
  exact hall "AForAct"

theorem splitDotData_cons (c : Char) (rest : List Char) :
    splitDotData (c :: rest) =
      (if c = '.' then [] :: splitDotData rest
       else
         match splitDotData rest with
         | [] => [[c]]
         | t :: ts => (c :: t) :: ts) := rfl

theorem splitDotData_ne_nil : ∀ l : List Char, splitDotData l ≠ []
  | [] => by simp [splitDotData]
  | c :: rest => by
    rw [splitDotData_cons]
    by_cases hc : c = '.'
    · simp [hc]
    · rw [if_neg hc]
      cases h : splitDotData rest with
      | nil => simp
      | cons t ts => simp

theorem splitDotData_no_dot : ∀ (l : List Char), ∀ t ∈ splitDotData l, '.' ∉ t
  | [], t, ht => by
    simp [splitDotData] at ht
    simp [ht]
  | c :: rest, t, ht => by
    rw [splitDotData_cons] at ht
    by_cases hc : c = '.'
    · rw [if_pos hc] at ht
      rcases List.mem_cons.1 ht with rfl | ht'
      · simp
      · exact splitDotData_no_dot rest t ht'
    · rw [if_neg hc] at ht
      cases h : splitDotData rest with
      | nil => exact absurd h (splitDotData_ne_nil rest)
      | cons u us =>
        rw [h] at ht
        rcases List.mem_cons.1 ht with rfl | ht'
        · intro hmem
          rcases List.mem_cons.1 hmem with h1 | h2
          · exact hc h1.symm
          · exact splitDotData_no_dot rest u (by simp [h]) h2
        · exact splitDotData_no_dot rest t (by simp [h, ht'])

theorem splitDotData_no_dot_eq (l : List Char) (h : '.' ∉ l) :
    splitDotData l = [l] := by
  induction l with
  | nil => rfl
  | cons c rest ih =>
    have hc : ¬ c = '.' := fun he => h (by simp [he])
    have hr : '.' ∉ rest := fun hm => h (List.mem_cons_of_mem _ hm)
    rw [splitDotData_cons, if_neg hc, ih hr]

theorem splitDotData_append_dot (l1 l2 : List Char) (h : '.' ∉ l1) :
    splitDotData (l1 ++ '.' :: l2) = l1 :: splitDotData l2 := by
  induction l1 with
  | nil => simp [splitDotData_cons]
  | cons c rest ih =>
    have hc : ¬ c = '.' := fun he => h (by simp [he])
    have hr : '.' ∉ rest := fun hm => h (List.mem_cons_of_mem _ hm)
    rw [List.cons_append, splitDotData_cons, if_neg hc, ih hr]

theorem pySplitDot_joinDot :
    ∀ (parts : List String), parts ≠ [] →
      (∀ s ∈ parts, '.' ∉ s.data) → pySplitDot (joinDot parts) = parts
  | [], h, _ => absurd rfl h
  | [s], _, hdot => by
    have hd : '.' ∉ s.data := hdot s (by simp)
    show (splitDotData (joinDot [s]).data).map (fun l => (⟨l⟩ : String)) = [s]
    rw [show joinDot [s] = s from rfl, splitDotData_no_dot_eq s.data hd]
    rfl
  | s :: t :: ts, _, hdot => by
    have hjoin : joinDot (s :: t :: ts) = s ++ "." ++ joinDot (t :: ts) := rfl
    unfold pySplitDot
    rw [hjoin]
    have hdata : (s ++ "." ++ joinDot (t :: ts)).data =
        s.data ++ '.' :: (joinDot (t :: ts)).data := by
      rw [String.data_append, String.data_append]
      rw [show ("." : String).data = ['.'] from rfl]
      simp
    rw [hdata, splitDotData_append_dot _ _ (hdot s (by simp))]
    have ih := pySplitDot_joinDot (t :: ts) (by simp)
      (fun x hx => hdot x (List.mem_cons_of_mem _ hx))
    unfold pySplitDot at ih
    simp only [List.map_cons]
    rw [ih]

theorem mem_addToSetList (l : List String) (x y : String) :
    y ∈ addToSetList l x ↔ y ∈ l ∨ y = x := by
  unfold addToSetList
  by_cases h : x ∈ l
  · simp only [if_pos h]
    constructor
    · exact Or.inl
    · rintro (hy | rfl)
      · exact hy
      · exact h
  · simp [if_neg h]

theorem nodup_addToSetList (l : List String) (x : String) (h : l.Nodup) :
    (addToSetList l x).Nodup := by
  unfold addToSetList
  by_cases hx : x ∈ l
  · simpa [if_pos hx] using h
  · rw [if_neg hx]
    refine List.Nodup.append h (List.nodup_singleton x) ?_
    intro a ha hmem
    rw [List.mem_singleton] at hmem
    subst hmem
    exact hx ha

theorem mem_foldl_addToSetList {β : Type} (g : β → String) :
    ∀ (L : List β) (acc : List String) (y : String),
      y ∈ L.foldl (fun a i => addToSetList a (g i)) acc ↔
        y ∈ acc ∨ ∃ i ∈ L, y = g i := by
  intro L
  induction L with
  | nil => simp
  | cons i L ih =>
    intro acc y
    simp only [List.foldl_cons]
    rw [ih (addToSetList acc (g i)) y, mem_addToSetList]
    constructor
    · rintro ((hy | rfl) | ⟨j, hj, rfl⟩)
      · exact Or.inl hy
      · exact Or.inr ⟨i, by simp⟩
      · exact Or.inr ⟨j, List.mem_cons_of_mem _ hj, rfl⟩
    · rintro (hy | ⟨j, hj, rfl⟩)
      · exact Or.inl (Or.inl hy)
      · rcases List.mem_cons.1 hj with rfl | hj'
        · exact Or.inl (Or.inr rfl)
        · exact Or.inr ⟨j, hj', rfl⟩

theorem nodup_foldl_addToSetList {β : Type} (g : β → String) :
    ∀ (L : List β) (acc : List String), acc.Nodup →
      (L.foldl (fun a i => addToSetList a (g i)) acc).Nodup := by
  intro L
  induction L with
  | nil => exact fun acc h => h
  | cons i L ih =>
    intro acc h
    exact ih _ (nodup_addToSetList _ _ h)

theorem mem_addPrefixPaths (nops : List String) (pp : List String) (y : String) :
    y ∈ addPrefixPaths nops pp ↔
      y ∈ nops ∨ ∃ i, i < pp.length ∧ y = joinDot (pp.take (i + 1)) := by
  unfold addPrefixPaths
  rw [mem_foldl_addToSetList (fun i => joinDot (pp.take (i + 1))) (List.range pp.length) nops y]
  simp [List.mem_range]

theorem mem_nestedPaths_foldRecord :
    ∀ (rows : List ParsedRow) (d : Discovery) (y : String),
      y ∈ (rows.foldl recordRow d).nested_object_paths ↔
        y ∈ d.nested_object_paths ∨
          ∃ r ∈ rows, r.2.1 ≠ [] ∧ ∃ i, i < r.2.1.length ∧
            y = joinDot (r.2.1.take (i + 1)) := by
  intro rows
  induction rows with
  | nil => simp
  | cons r rest ih =>
    intro d y
    simp only [List.foldl_cons]
    rw [ih (recordRow d r) y]
    have hstep : y ∈ (recordRow d r).nested_object_paths ↔
        y ∈ d.nested_object_paths ∨
          (r.2.1 ≠ [] ∧ ∃ i, i < r.2.1.length ∧ y = joinDot (r.2.1.take (i + 1))) := by
      unfold recordRow
      by_cases hlen : 0 < r.2.1.length
      · rw [if_pos hlen]
        have hne : r.2.1 ≠ [] := by
          intro he
          rw [he] at hlen
          simp at hlen
        cases hai : r.2.2.2.1 with
        | true =>
          simp only [hai, if_pos rfl]
          rw [mem_addPrefixPaths]
          simp [hne]
        | false =>
          simp only [hai, Bool.false_eq_true, if_neg (by simp : ¬False)]
          rw [mem_addPrefixPaths]
          simp [hne]
      · rw [if_neg hlen]
        have hnil : r.2.1 = [] := by simpa using hlen
        simp [hnil]
    rw [hstep]
    constructor
    · rintro ((hd | hr) | ⟨q, hq, hprop⟩)
      · exact Or.inl hd
      · exact Or.inr ⟨r, by simp, hr⟩
      · exact Or.inr ⟨q, List.mem_cons_of_mem _ hq, hprop⟩
    · rintro (hd | ⟨q, hq, hprop⟩)
      · exact Or.inl (Or.inl hd)
      · rcases List.mem_cons.1 hq with rfl | hq'
        · exact Or.inl (Or.inr hprop)
        · exact Or.inr ⟨q, hq', hprop⟩

theorem mem_nestedPaths (rows : List ParsedRow) (y : String) :
    y ∈ (firstPass rows).nested_object_paths ↔
      ∃ r ∈ rows, r.2.1 ≠ [] ∧ ∃ i, i < r.2.1.length ∧
        y = joinDot (r.2.1.take (i + 1)) := by
  unfold firstPass
  rw [mem_nestedPaths_foldRecord rows ⟨[], [], []⟩ y]
  simp

theorem nodup_nestedPaths (rows : List ParsedRow) :
    (firstPass rows).nested_object_paths.Nodup := by
  unfold firstPass
  suffices h : ∀ (L : List ParsedRow) (d : Discovery), d.nested_object_paths.Nodup →
      ((L.foldl recordRow d).nested_object_paths).Nodup by
    exact h rows ⟨[], [], []⟩ (by simp)
  intro L
  induction L with
  | nil => exact fun d h => h
  | cons r rest ih =>
    intro d h
    apply ih
    unfold recordRow
    by_cases hlen : 0 < r.2.1.length
    · rw [if_pos hlen]
      cases hai : r.2.2.2.1 with
      | true =>
        simp only [hai, if_pos rfl]
        exact nodup_foldl_addToSetList _ _ _ h
      | false =>
        simp only [hai, Bool.false_eq_true, if_neg (by simp : ¬False)]
        exact nodup_foldl_addToSetList _ _ _ h
    · rw [if_neg hlen]
      exact h

theorem insertSorted_perm (x : String) : ∀ l : List String, (insertSorted x l).Perm (x :: l)
  | [] => List.Perm.refl _
  | y :: rest => by
    unfold insertSorted
    by_cases h : x < y
    · rw [if_pos h]
    · rw [if_neg h]
      exact (List.Perm.cons y (insertSorted_perm x rest)).trans (List.Perm.swap x y rest)

theorem sortStr_perm : ∀ l : List String, (sortStr l).Perm l
  | [] => List.Perm.refl _
  | x :: rest => by
    unfold sortStr
    simp only [List.foldr_cons]
    exact (insertSorted_perm x _).trans (List.Perm.cons x (sortStr_perm rest))

theorem mem_sortStr (l : List String) (x : String) : x ∈ sortStr l ↔ x ∈ l :=
  (sortStr_perm l).mem_iff

theorem nodup_sortStr (l : List String) (h : l.Nodup) : (sortStr l).Nodup :=
  ((sortStr_perm l).nodup_iff).2 h

theorem parse_pp_no_dot (s : String) (pp : List String) (leaf : String) (ai sa : Bool)
    (h : parse_field_path s = some (pp, leaf, ai, sa)) :
    ∀ x ∈ pp, '.' ∉ x.data := by
  unfold parse_field_path at h
  dsimp only at h
  split at h
  · exact absurd h (by simp)
  · injection h with h1
    injection h1 with ha hb
    subst ha
    intro x hx
    simp at hx
  · rename_i p q rest heq
    injection h with h1
    injection h1 with ha hb
    subst ha
    intro x hx
    have hx2 : x ∈ (p :: q :: rest) := List.dropLast_subset _ hx
    rw [← heq] at hx2
    have hx3 : x ∈ pySplitDot s := List.mem_of_mem_filter hx2
    unfold pySplitDot at hx3
    obtain ⟨t, ht, rfl⟩ := List.mem_map.1 hx3
    exact splitDotData_no_dot s.data t ht

theorem parseRows_cons_some (p : Param) (rest : List Param) (rows : List ParsedRow)
    (h : parseRows (p :: rest) = some rows) :
    ∃ n q rs, p.Name = some n ∧ parse_field_path n = some q ∧
      parseRows rest = some rs ∧ rows = (p, q) :: rs := by
  cases hn : p.Name with
  | none => simp [parseRows, hn] at h
  | some n =>
    cases hq : parse_field_path n with
    | none => simp [parseRows, hn, hq] at h
    | some q =>
      cases hrs : parseRows rest with
      | none => simp [parseRows, hn, hq, hrs] at h
      | some rs =>
        simp [parseRows, hn, hq, hrs] at h
        exact ⟨n, q, rs, rfl, hq, rfl, h.symm⟩

theorem parseRows_mem (params : List Param) :
    ∀ (rows : List ParsedRow), parseRows params = some rows →
      ∀ r ∈ rows, ∃ n, r.1.Name = some n ∧ parse_field_path n = some r.2 := by
  induction params with
  | nil =>
    intro rows h r hr
    unfold parseRows at h
    injection h with h1
    rw [← h1] at hr
    simp at hr
  | cons p rest ih =>
    intro rows h r hr
    obtain ⟨n, q, rs, hn, hq, hrs, rfl⟩ := parseRows_cons_some p rest rows h
    rcases List.mem_cons.1 hr with rfl | hr'
    · exact ⟨n, hn, hq⟩
    · exact ih rs hrs r hr'

theorem rows_pp_no_dot (params : List Param) (rows : List ParsedRow)
    (h : parseRows params = some rows) :
    ∀ r ∈ rows, ∀ x ∈ r.2.1, '.' ∉ x.data := by
  rintro ⟨param, pp, leaf, ai, sa⟩ hr x hx
  obtain ⟨n, _, hparse⟩ := parseRows_mem params rows h _ hr
  exact parse_pp_no_dot n pp leaf ai sa hparse x hx

theorem dropLast_take {α : Type} (l : List α) (i : Nat) (h : i + 1 ≤ l.length) :
    (l.take (i + 1)).dropLast = l.take i := by
  rw [List.dropLast_eq_take]
  rw [List.take_take]
  congr 1
  rw [List.length_take]
  omega

theorem take_succ_ne_nil {α : Type} (l : List α) (i : Nat) (h : l ≠ []) :
    l.take (i + 1) ≠ [] := by
  cases l with
  | nil => exact absurd rfl h
  | cons a as => simp

theorem nested_path_structure (rows : List ParsedRow)
    (hdot : ∀ r ∈ rows, ∀ x ∈ r.2.1, '.' ∉ x.data)
    (p : String) (hp : p ∈ (firstPass rows).nested_object_paths) :
    ∃ segs : List String, segs ≠ [] ∧ (∀ x ∈ segs, '.' ∉ x.data) ∧
      p = joinDot segs ∧ pySplitDot p = segs ∧
      (2 ≤ segs.length →
        joinDot segs.dropLast ∈ (firstPass rows).nested_object_paths) := by
  obtain ⟨r, hr, hne, i, hi, hpj⟩ := (mem_nestedPaths rows p).1 hp
  have hlen : (r.2.1.take (i + 1)).length = i + 1 := by
    rw [List.length_take]
    omega
  refine ⟨r.2.1.take (i + 1), take_succ_ne_nil _ _ hne, ?_, hpj, ?_, ?_⟩
  · intro x hx
    exact hdot r hr x (List.take_subset _ _ hx)
  · rw [hpj]
    exact pySplitDot_joinDot _ (take_succ_ne_nil _ _ hne)
      (fun x hx => hdot r hr x (List.take_subset _ _ hx))
  · intro h2
    have hi1 : 1 ≤ i := by
      rw [hlen] at h2
      omega
    rw [dropLast_take _ _ hi]
    refine (mem_nestedPaths rows _).2 ⟨r, hr, hne, i - 1, by omega, ?_⟩
    rw [show i - 1 + 1 = i from by omega]

theorem arrObjKey_mem_nested (rows : List ParsedRow) (p : String)
    (h : alMem (array_objects_of (firstPass rows)) p = true) :
    p ∈ (firstPass rows).nested_object_paths := by
  rw [arrayObjects_mem, Bool.and_eq_true] at h
  obtain ⟨h1, _⟩ := h
  obtain ⟨r, hr, hpred⟩ := List.any_eq_true.1 h1
  simp only [Bool.and_eq_true, decide_eq_true_eq] at hpred
  have hlen1 : 1 ≤ r.2.1.length := by
    cases hl : r.2.1 with
    | nil => exact absurd hl hpred.1.1
    | cons a as => simp [hl]
  refine (mem_nestedPaths rows p).2 ⟨r, hr, hpred.1.1, r.2.1.length - 1, by omega, ?_⟩
  rw [show r.2.1.length - 1 + 1 = r.2.1.length by omega, List.take_length]
  exact hpred.2.symm

theorem head_prefix_mem_nested (rows : List ParsedRow) (r : ParsedRow)
    (hr : r ∈ rows) (hne : r.2.1 ≠ []) :
    r.2.1.headD "" ∈ (firstPass rows).nested_object_paths := by
  refine (mem_nestedPaths rows _).2 ⟨r, hr, hne, 0, ?_, ?_⟩
  · cases hl : r.2.1 with
    | nil => exact absurd hl hne
    | cons a as => simp [hl]
  · cases hl : r.2.1 with
    | nil => exact absurd hl hne
    | cons a as => simp [hl, joinDot]

theorem alGet_alSet_self {α : Type} (m : List (String × α)) (k : String) (v : α) :
    alGet (alSet m k v) k = some v := by
  induction m with
  | nil => simp [alSet, alGet]
  | cons kv rest ih =>
    obtain ⟨k', v'⟩ := kv
    by_cases hk : k' = k
    · rw [alSet, if_pos hk, alGet, if_pos rfl]
    · rw [alSet, if_neg hk, alGet, if_neg hk]
      exact ih

theorem alGet_alSet_ne {α : Type} (m : List (String × α)) (k p : String) (v : α)
    (h : k ≠ p) : alGet (alSet m k v) p = alGet m p := by
  induction m with
  | nil => simp [alSet, alGet, h]
  | cons kv rest ih =>
    obtain ⟨k', v'⟩ := kv
    by_cases hk : k' = k
    · subst hk
      rw [alSet, if_pos rfl, alGet, if_neg h, alGet, if_neg h]
    · rw [alSet, if_neg hk, alGet, alGet]
      by_cases hp : k' = p
      · rw [if_pos hp, if_pos hp]
      · rw [if_neg hp, if_neg hp]
        exact ih

theorem alGet_mem {α : Type} (m : List (String × α)) (k : String) (v : α)
    (h : alGet m k = some v) : (k, v) ∈ m := by
  induction m with
  | nil => simp [alGet] at h
  | cons kv rest ih =>
    obtain ⟨k', v'⟩ := kv
    rw [alGet] at h
    by_cases hk : k' = k
    · rw [if_pos hk] at h
      injection h with h1
      subst hk h1
      simp
    · rw [if_neg hk] at h
      exact List.mem_cons_of_mem _ (ih h)

theorem alMem_of_mem {α : Type} (m : List (String × α)) (k : String) (v : α)
    (h : (k, v) ∈ m) : alMem m k = true := by
  induction m with
  | nil => simp at h
  | cons kv rest ih =>
    obtain ⟨k', v'⟩ := kv
    rcases List.mem_cons.1 h with heq | hmem
    · injection heq with h1 h2
      subst h1
      simp [alMem, alGet]
    · by_cases hk : k' = k
      · simp [alMem, alGet, hk]
      · simp only [alMem, alGet, if_neg hk]
        exact ih hmem

theorem qualify_append_helper (st : List String) (base action : String) :
    (qualify_model_name st base action).2 =
      st ++ [(qualify_model_name st base action).1] := by
  have h := qualify_fresh_helper st base action
  show register_class_name st (qualify_model_name st base action).1 = _
  unfold register_class_name
  rw [if_neg h]

theorem createInv_step (d : Discovery) (action : String) (b : BuildSt)
    (path0 base : String) (hCI : CreateInv d b)
    (hfresh : alGet b.pcn path0 = none) (hmem : path0 ∈ d.nested_object_paths) :
    CreateInv d
      ⟨alSet b.pcn path0 (qualify_model_name b.reg base action).1,
       alSet b.cms (qualify_model_name b.reg base action).1
         ⟨(qualify_model_name b.reg base action).1, []⟩,
       (qualify_model_name b.reg base action).2⟩ := by
  set nn := (qualify_model_name b.reg base action).1 with hnn
  have hfr : nn ∉ b.reg := qualify_fresh_helper b.reg base action
  have hreg : (qualify_model_name b.reg base action).2 = b.reg ++ [nn] :=
    qualify_append_helper b.reg base action
  have hnotval : ∀ p n, alGet b.pcn p = some n → n ≠ nn := by
    intro p n hpn he
    exact hfr (he ▸ hCI.inReg p n hpn)
  constructor
  · intro p n hpn
    by_cases hp : path0 = p
    · subst hp
      rw [alGet_alSet_self] at hpn
      injection hpn with h1
      subst h1
      exact alGet_alSet_self _ _ _
    · rw [alGet_alSet_ne _ _ _ _ hp] at hpn
      have hne := hnotval p n hpn
      rw [alGet_alSet_ne _ _ _ _ (fun he => hne he.symm)]
      exact hCI.linkage p n hpn
  · intro p n hpn
    rw [hreg]
    by_cases hp : path0 = p
    · subst hp
      rw [alGet_alSet_self] at hpn
      injection hpn with h1
      subst h1
      simp
    · rw [alGet_alSet_ne _ _ _ _ hp] at hpn
      exact List.mem_append_left _ (hCI.inReg p n hpn)
  · intro p q n hpn hqn
    by_cases hp : path0 = p
    · subst hp
      rw [alGet_alSet_self] at hpn
      injection hpn with h1
      by_cases hq : path0 = q
      · exact hq
      · rw [alGet_alSet_ne _ _ _ _ hq] at hqn
        exact absurd h1.symm (hnotval q n hqn)
    · rw [alGet_alSet_ne _ _ _ _ hp] at hpn
      by_cases hq : path0 = q
      · subst hq
        rw [alGet_alSet_self] at hqn
        injection hqn with h1
        exact absurd h1.symm (hnotval p n hpn)
      · rw [alGet_alSet_ne _ _ _ _ hq] at hqn
        exact hCI.inj p q n hpn hqn
  · intro n M hnM
    by_cases hn : nn = n
    · subst hn
      exact ⟨path0, alGet_alSet_self _ _ _, hmem⟩
    · rw [alGet_alSet_ne _ _ _ _ hn] at hnM
      obtain ⟨p, hpn, hpmem⟩ := hCI.onto n M hnM
      have hp : path0 ≠ p := by
        intro he
        subst he
        rw [hfresh] at hpn
        exact absurd hpn (by simp)
      exact ⟨p, by rw [alGet_alSet_ne _ _ _ _ hp]; exact hpn, hpmem⟩
  · intro p n hpn
    by_cases hp : path0 = p
    · subst hp
      exact hmem
    · rw [alGet_alSet_ne _ _ _ _ hp] at hpn
      exact hCI.keys p n hpn

theorem alMem_false_alGet_none {α : Type} (m : List (String × α)) (k : String)
    (h : alMem m k = false) : alGet m k = none := by
  unfold alMem at h
  cases hg : alGet m k with
  | none => rfl
  | some v => rw [hg] at h; simp at h

theorem createNormal_fold (d : Discovery) (action : String) :
    ∀ (L : List String) (b : BuildSt), L.Nodup →
      (∀ p ∈ L, alMem b.pcn p = false) →
      (∀ p ∈ L, p ∈ d.nested_object_paths) →
      CreateInv d b →
      CreateInv d (L.foldl (createNormalStep d action) b) ∧
      (∀ p, alMem b.pcn p = true →
        alMem (L.foldl (createNormalStep d action) b).pcn p = true) ∧
      (∀ p ∈ L, alMem (array_objects_of d) p = false →
        alMem (L.foldl (createNormalStep d action) b).pcn p = true) ∧
      (∀ p, alMem (L.foldl (createNormalStep d action) b).pcn p = true →
        alMem b.pcn p = true ∨
          (p ∈ L ∧ alMem (array_objects_of d) p = false)) := by
  intro L
  induction L with
  | nil =>
    intro b _ _ _ hCI
    exact ⟨hCI, fun p h => h, by simp, fun p h => Or.inl h⟩
  | cons p0 L ih =>
    intro b hnd hfresh hnested hCI
    have hnd' : L.Nodup := (List.nodup_cons.1 hnd).2
    have hp0 : p0 ∉ L := (List.nodup_cons.1 hnd).1
    simp only [List.foldl_cons]
    by_cases harr : alMem (array_objects_of d) p0 = true
    · have hstep : createNormalStep d action b p0 = b := by
        unfold createNormalStep
        rw [if_pos harr]
      rw [hstep]
      obtain ⟨hI, hmono, hcov, horig⟩ := ih b hnd'
        (fun p hp => hfresh p (List.mem_cons_of_mem _ hp))
        (fun p hp => hnested p (List.mem_cons_of_mem _ hp)) hCI
      refine ⟨hI, hmono, ?_, ?_⟩
      · intro p hp hpf
        rcases List.mem_cons.1 hp with rfl | hp'
        · rw [harr] at hpf
          exact absurd hpf (by simp)
        · exact hcov p hp' hpf
      · intro p hp
        rcases horig p hp with h | ⟨h1, h2⟩
        · exact Or.inl h
        · exact Or.inr ⟨List.mem_cons_of_mem _ h1, h2⟩
    · have harr' : alMem (array_objects_of d) p0 = false := by simpa using harr
      have hstep : createNormalStep d action b p0 =
          ⟨alSet b.pcn p0 (qualify_model_name b.reg
              (build_nested_base_name p0 false) action).1,
           alSet b.cms (qualify_model_name b.reg
              (build_nested_base_name p0 false) action).1
             ⟨(qualify_model_name b.reg
                (build_nested_base_name p0 false) action).1, []⟩,
           (qualify_model_name b.reg (build_nested_base_name p0 false) action).2⟩ := by
        unfold createNormalStep
        rw [if_neg (by simp [harr'])]
      rw [hstep]
      have hCI' := createInv_step d action b p0 (build_nested_base_name p0 false) hCI
        (alMem_false_alGet_none _ _ (hfresh p0 (by simp)))
        (hnested p0 (by simp))
      have hmemstep : ∀ p, alMem (alSet b.pcn p0 (qualify_model_name b.reg
          (build_nested_base_name p0 false) action).1) p =
          (alMem b.pcn p || decide (p0 = p)) := fun p => alMem_alSet _ _ _ _
      obtain ⟨hI, hmono, hcov, horig⟩ := ih _ hnd'
        (fun p hp => by
          rw [hmemstep p]
          have h1 := hfresh p (List.mem_cons_of_mem _ hp)
          have h2 : p0 ≠ p := fun he => hp0 (he ▸ hp)
          simp [h1, h2])
        (fun p hp => hnested p (List.mem_cons_of_mem _ hp)) hCI'
      refine ⟨hI, ?_, ?_, ?_⟩
      · intro p hp
        apply hmono
        rw [hmemstep p, hp]
        simp
      · intro p hp hpf
        rcases List.mem_cons.1 hp with rfl | hp'
        · apply hmono
          rw [hmemstep p]
          simp
        · exact hcov p hp' hpf
      · intro p hp
        rcases horig p hp with h | ⟨h1, h2⟩
        · rw [hmemstep p] at h
          rcases Bool.or_eq_true_iff.1 h with h' | h'
          · exact Or.inl h'
          · have : p0 = p := of_decide_eq_true h'
            subst this
            exact Or.inr ⟨by simp, harr'⟩
        · exact Or.inr ⟨List.mem_cons_of_mem _ h1, h2⟩

theorem alGet_none_iff_not_key {α : Type} (m : List (String × α)) (k : String) :
    alGet m k = none ↔ k ∉ m.map Prod.fst := by
  induction m with
  | nil => simp [alGet]
  | cons kv rest ih =>
    obtain ⟨k', v'⟩ := kv
    rw [alGet]
    by_cases hk : k' = k
    · subst hk
      simp
    · rw [if_neg hk]
      simp only [List.map_cons, List.mem_cons]
      rw [ih]
      constructor
      · intro h hc
        rcases hc with hc | hc
        · exact hk hc.symm
        · exact h hc
      · intro h hc
        exact h (Or.inr hc)

theorem map_fst_alSet_mem {α : Type} (m : List (String × α)) (k : String) (v : α)
    (h : alMem m k = true) : (alSet m k v).map Prod.fst = m.map Prod.fst := by
  induction m with
  | nil => simp [alMem, alGet] at h
  | cons kv rest ih =>
    obtain ⟨k', v'⟩ := kv
    by_cases hk : k' = k
    · subst hk
      rw [alSet, if_pos rfl]
      simp
    · rw [alSet, if_neg hk]
      simp only [List.map_cons, List.cons.injEq, true_and]
      apply ih
      simp only [alMem, alGet, if_neg hk] at h
      exact h

theorem keysNodup_alAddToSet (m : List (String × List String)) (k v : String)
    (h : (m.map Prod.fst).Nodup) : ((alAddToSet m k v).map Prod.fst).Nodup := by
  unfold alAddToSet
  cases hg : alGet m k with
  | none =>
    rw [List.map_append]
    refine List.Nodup.append h (by simp) ?_
    intro a ha hmem
    simp at hmem
    subst hmem
    exact ((alGet_none_iff_not_key m a).1 hg) ha
  | some s =>
    rw [map_fst_alSet_mem m k _ (by simp [alMem, hg])]
    exact h

theorem keysNodup_arrayFields (rows : List ParsedRow) :
    (((firstPass rows).array_fields).map Prod.fst).Nodup := by
  unfold firstPass
  suffices h : ∀ (L : List ParsedRow) (d : Discovery),
      ((d.array_fields).map Prod.fst).Nodup →
      (((L.foldl recordRow d).array_fields).map Prod.fst).Nodup by
    exact h rows ⟨[], [], []⟩ (by simp)
  intro L
  induction L with
  | nil => exact fun d h => h
  | cons r rest ih =>
    intro d h
    apply ih
    unfold recordRow
    by_cases hlen : 0 < r.2.1.length
    · rw [if_pos hlen]
      cases hai : r.2.2.2.1 with
      | true =>
        simp only [hai, if_pos rfl]
        exact keysNodup_alAddToSet _ _ _ h
      | false =>
        simp only [hai, Bool.false_eq_true, if_neg (by simp : ¬False)]
        exact h
    · rw [if_neg hlen]
      exact h

theorem keysNodup_arrayObjects (rows : List ParsedRow) :
    (((array_objects_of (firstPass rows))).map Prod.fst).Nodup := by
  unfold array_objects_of
  have hsub : List.Sublist
      (((firstPass rows).array_fields.filter
        (fun kv => !alMem (firstPass rows).normal_fields kv.1)).map Prod.fst)
      (((firstPass rows).array_fields).map Prod.fst) :=
    (List.filter_sublist _).map Prod.fst
  exact hsub.nodup (keysNodup_arrayFields rows)

theorem createArray_fold (d : Discovery) (action : String) :
    ∀ (kvL : List (String × List String)) (b : BuildSt),
      ((kvL.map Prod.fst).Nodup) →
      (∀ kv ∈ kvL, alMem b.pcn kv.1 = false) →
      (∀ kv ∈ kvL, kv.1 ∈ d.nested_object_paths) →
      CreateInv d b →
      CreateInv d (kvL.foldl (createArrayStep d action) b) ∧
      (∀ p, alMem b.pcn p = true →
        alMem (kvL.foldl (createArrayStep d action) b).pcn p = true) ∧
      (∀ kv ∈ kvL, alMem (kvL.foldl (createArrayStep d action) b).pcn kv.1 = true) := by
  intro kvL
  induction kvL with
  | nil =>
    intro b _ _ _ hCI
    exact ⟨hCI, fun p h => h, by simp⟩
  | cons kv0 kvL ih =>
    intro b hnd hfresh hnested hCI
    have hnd' : (kvL.map Prod.fst).Nodup := by
      simp only [List.map_cons, List.nodup_cons] at hnd
      exact hnd.2
    have hk0 : kv0.1 ∉ kvL.map Prod.fst := by
      simp only [List.map_cons, List.nodup_cons] at hnd
      exact hnd.1
    simp only [List.foldl_cons]
    have hcond : ((decide ((pySplitDot kv0.1).length = 1)) ||
        (decide (kv0.1 ∈ d.nested_object_paths))) = true := by
      have := hnested kv0 (by simp)
      simp [this]
    have hstep : createArrayStep d action b kv0 =
        ⟨alSet b.pcn kv0.1 (qualify_model_name b.reg
            (build_nested_base_name kv0.1 true) action).1,
         alSet b.cms (qualify_model_name b.reg
            (build_nested_base_name kv0.1 true) action).1
           ⟨(qualify_model_name b.reg
              (build_nested_base_name kv0.1 true) action).1, []⟩,
         (qualify_model_name b.reg (build_nested_base_name kv0.1 true) action).2⟩ := by
      unfold createArrayStep
      rw [if_pos (by simpa using hcond)]
    rw [hstep]
    have hCI' := createInv_step d action b kv0.1 (build_nested_base_name kv0.1 true) hCI
      (alMem_false_alGet_none _ _ (hfresh kv0 (by simp)))
      (hnested kv0 (by simp))
    have hmemstep : ∀ p, alMem (alSet b.pcn kv0.1 (qualify_model_name b.reg
        (build_nested_base_name kv0.1 true) action).1) p =
        (alMem b.pcn p || decide (kv0.1 = p)) := fun p => alMem_alSet _ _ _ _
    obtain ⟨hI, hmono, hcov⟩ := ih _ hnd'
      (fun kv hkv => by
        rw [hmemstep kv.1]
        have h1 := hfresh kv (List.mem_cons_of_mem _ hkv)
        have h2 : kv0.1 ≠ kv.1 := by
          intro he
          exact hk0 (he ▸ List.mem_map_of_mem Prod.fst hkv)
        simp [h1, h2])
      (fun kv hkv => hnested kv (List.mem_cons_of_mem _ hkv)) hCI'
    refine ⟨hI, ?_, ?_⟩
    · intro p hp
      apply hmono
      rw [hmemstep p, hp]
      simp
    · intro kv hkv
      rcases List.mem_cons.1 hkv with rfl | hkv'
      · apply hmono
        rw [hmemstep kv.1]
        simp
      · exact hcov kv hkv'

theorem builder_inv (rows : List ParsedRow) (action : String) (reg : List String) :
    CreateInv (firstPass rows)
      (createArrayModels (firstPass rows) action
        (createNormalModels (firstPass rows) action reg)) ∧
    (∀ p ∈ (firstPass rows).nested_object_paths,
      alMem (createArrayModels (firstPass rows) action
        (createNormalModels (firstPass rows) action reg)).pcn p = true) := by
  have hCI0 : CreateInv (firstPass rows) ⟨[], [], reg⟩ := by
    constructor
    · intro p n h
      simp [alGet] at h
    · intro p n h
      simp [alGet] at h
    · intro p q n h _
      simp [alGet] at h
    · intro n M h
      simp [alGet] at h
    · intro p n h
      simp [alGet] at h
  have hnd : (sortStr (firstPass rows).nested_object_paths).Nodup :=
    nodup_sortStr _ (nodup_nestedPaths rows)
  obtain ⟨hI1, hmono1, hcov1, horig1⟩ :=
    createNormal_fold (firstPass rows) action
      (sortStr (firstPass rows).nested_object_paths) ⟨[], [], reg⟩ hnd
      (fun p _ => by simp [alMem, alGet])
      (fun p hp => (mem_sortStr _ _).1 hp) hCI0
  have hb1 : createNormalModels (firstPass rows) action reg =
      (sortStr (firstPass rows).nested_object_paths).foldl
        (createNormalStep (firstPass rows) action) ⟨[], [], reg⟩ := rfl
  rw [← hb1] at hI1 hmono1 hcov1 horig1
  have hfreshA : ∀ kv ∈ array_objects_of (firstPass rows),
      alMem (createNormalModels (firstPass rows) action reg).pcn kv.1 = false := by
    intro kv hkv
    cases hm : alMem (createNormalModels (firstPass rows) action reg).pcn kv.1 with
    | false => rfl
    | true =>
      exfalso
      rcases horig1 kv.1 hm with h | ⟨_, h2⟩
      · simp [alMem, alGet] at h
      · rw [alMem_of_mem _ _ _ hkv] at h2
        exact absurd h2 (by simp)
  have hnestedA : ∀ kv ∈ array_objects_of (firstPass rows),
      kv.1 ∈ (firstPass rows).nested_object_paths := by
    intro kv hkv
    exact arrObjKey_mem_nested rows kv.1 (alMem_of_mem _ _ _ hkv)
  obtain ⟨hI2, hmono2, hcov2⟩ :=
    createArray_fold (firstPass rows) action (array_objects_of (firstPass rows))
      (createNormalModels (firstPass rows) action reg)
      (keysNodup_arrayObjects rows) hfreshA hnestedA hI1
  have hb2 : createArrayModels (firstPass rows) action
      (createNormalModels (firstPass rows) action reg) =
      (array_objects_of (firstPass rows)).foldl
        (createArrayStep (firstPass rows) action)
        (createNormalModels (firstPass rows) action reg) := rfl
  rw [← hb2] at hI2 hmono2 hcov2
  refine ⟨hI2, ?_⟩
  intro p hp
  by_cases harr : alMem (array_objects_of (firstPass rows)) p = true
  · unfold alMem at harr
    cases hg : alGet (array_objects_of (firstPass rows)) p with
    | none => rw [hg] at harr; simp at harr
    | some v =>
      exact hcov2 (p, v) (alGet_mem _ _ _ hg)
  · have harr' : alMem (array_objects_of (firstPass rows)) p = false := by
      simpa using harr
    exact hmono2 p (hcov1 p ((mem_sortStr _ _).2 hp) harr')

theorem wireStep_short (d : Discovery) (b : BuildSt) (cms : List (String × NestedModel))
    (q0 : String) (h : (pySplitDot q0).length < 2) :
    wireStep d b cms q0 = cms := by
  unfold wireStep
  dsimp only
  rw [if_pos h]

theorem wireStep_long (d : Discovery) (b : BuildSt) (cms : List (String × NestedModel))
    (q0 : String) (pCN : String) (pm : NestedModel)
    (h2 : ¬ (pySplitDot q0).length < 2)
    (hparent : alGet b.pcn (joinDot (pySplitDot q0).dropLast) = some pCN)
    (hcms : alGet cms pCN = some pm)
    (hdup : pm.fields.any (fun f => decide (f.python_name =
      to_snake_case ((pySplitDot q0).getLastD ""))) = false) :
    wireStep d b cms q0 = alSet cms pCN ⟨pm.name, pm.fields ++
      [⟨(pySplitDot q0).getLastD "",
        to_snake_case ((pySplitDot q0).getLastD ""),
        (alGet b.pcn q0).getD ((pySplitDot q0).getLastD ""), false,
        alMem (array_objects_of d) q0, ""⟩]⟩ := by
  unfold wireStep
  dsimp only
  rw [if_neg h2, hparent]
  dsimp only
  rw [hcms]
  dsimp only
  rw [hdup]
  simp

theorem alMem_alSet_existing {α : Type} (m : List (String × α)) (k : String) (v : α)
    (h : alMem m k = true) : ∀ x, alMem (alSet m k v) x = alMem m x := by
  intro x
  rw [alMem_alSet]
  by_cases hk : k = x
  · subst hk
    simp [h]
  · simp [hk]

theorem wire_fold (d : Discovery) (b : BuildSt)
    (hCI : CreateInv d b)
    (hTOT : ∀ p ∈ d.nested_object_paths, alMem b.pcn p = true)
    (hclose : ∀ q ∈ d.nested_object_paths, 2 ≤ (pySplitDot q).length →
      joinDot (pySplitDot q).dropLast ∈ d.nested_object_paths)
    (H2a : ∀ p ∈ d.nested_object_paths, ∀ q ∈ d.nested_object_paths,
      2 ≤ (pySplitDot p).length → 2 ≤ (pySplitDot q).length →
      joinDot (pySplitDot p).dropLast = joinDot (pySplitDot q).dropLast →
      to_snake_case ((pySplitDot p).getLastD "") =
        to_snake_case ((pySplitDot q).getLastD "") → p = q) :
    ∀ (S : List String) (processed : List String) (cms : List (String × NestedModel)),
      (∀ x ∈ S, x ∉ processed) → (∀ x ∈ S, x ∈ d.nested_object_paths) →
      (∀ x ∈ processed, x ∈ d.nested_object_paths) → S.Nodup →
      (∀ x, alMem cms x = alMem b.cms x) →
      (∀ n M, alGet cms n = some M → M.name = n ∧
        ∀ f ∈ M.fields, ∃ q ∈ processed, 2 ≤ (pySplitDot q).length ∧
          alGet b.pcn (joinDot (pySplitDot q).dropLast) = some n ∧
          f.python_name = to_snake_case ((pySplitDot q).getLastD "") ∧
          f.type_str = (alGet b.pcn q).getD ((pySplitDot q).getLastD "")) →
      (∀ x, alMem (S.foldl (wireStep d b) cms) x = alMem b.cms x) ∧
      (∀ n M, alGet (S.foldl (wireStep d b) cms) n = some M → M.name = n ∧
        ∀ f ∈ M.fields, ∃ q ∈ processed ++ S, 2 ≤ (pySplitDot q).length ∧
          alGet b.pcn (joinDot (pySplitDot q).dropLast) = some n ∧
          f.python_name = to_snake_case ((pySplitDot q).getLastD "") ∧
          f.type_str = (alGet b.pcn q).getD ((pySplitDot q).getLastD "")) ∧
      (∀ n M, alGet cms n = some M →
        ∃ M', alGet (S.foldl (wireStep d b) cms) n = some M' ∧
          ∀ f ∈ M.fields, f ∈ M'.fields) ∧
      (∀ q ∈ S, 2 ≤ (pySplitDot q).length →
        ∃ n M f, alGet b.pcn (joinDot (pySplitDot q).dropLast) = some n ∧
          alGet (S.foldl (wireStep d b) cms) n = some M ∧ f ∈ M.fields ∧
          f.type_str = (alGet b.pcn q).getD ((pySplitDot q).getLastD "")) := by
  intro S
  induction S with
  | nil =>
    intro processed cms _ _ _ _ hkeys hw1
    refine ⟨hkeys, ?_, ?_, by simp⟩
    · intro n M hM
      obtain ⟨h1, h2⟩ := hw1 n M hM
      exact ⟨h1, fun f hf => by simpa using h2 f hf⟩
    · intro n M hM
      exact ⟨M, hM, fun f hf => hf⟩
  | cons q0 S ih =>
    intro processed cms hdisj hSmem hPmem hnd hkeys hw1
    have hq0mem : q0 ∈ d.nested_object_paths := hSmem q0 (by simp)
    have hnd' : S.Nodup := (List.nodup_cons.1 hnd).2
    have hq0S : q0 ∉ S := (List.nodup_cons.1 hnd).1
    simp only [List.foldl_cons]
    by_cases hlen : (pySplitDot q0).length < 2
    · rw [wireStep_short d b cms q0 hlen]
      obtain ⟨hC1, hC2, hC3, hC4⟩ := ih (processed ++ [q0]) cms
        (fun x hx => by
          intro hmem
          rcases List.mem_append.1 hmem with h | h
          · exact hdisj x (List.mem_cons_of_mem _ hx) h
          · rw [List.mem_singleton] at h
            exact hq0S (h ▸ hx))
        (fun x hx => hSmem x (List.mem_cons_of_mem _ hx))
        (fun x hx => by
          rcases List.mem_append.1 hx with h | h
          · exact hPmem x h
          · rw [List.mem_singleton] at h
            exact h ▸ hq0mem)
        hnd' hkeys
        (fun n M hM => by
          obtain ⟨h1, h2⟩ := hw1 n M hM
          refine ⟨h1, fun f hf => ?_⟩
          obtain ⟨q, hq, hrest⟩ := h2 f hf
          exact ⟨q, List.mem_append_left _ hq, hrest⟩)
      refine ⟨hC1, ?_, hC3, ?_⟩
      · intro n M hM
        obtain ⟨h1, h2⟩ := hC2 n M hM
        refine ⟨h1, fun f hf => ?_⟩
        obtain ⟨q, hq, hrest⟩ := h2 f hf
        refine ⟨q, ?_, hrest⟩
        rcases List.mem_append.1 hq with h | h
        · rcases List.mem_append.1 h with h' | h'
          · exact List.mem_append_left _ h'
          · rw [List.mem_singleton] at h'
            exact List.mem_append_right _ (h' ▸ by simp)
        · exact List.mem_append_right _ (List.mem_cons_of_mem _ h)
      · intro q hq h2q
        rcases List.mem_cons.1 hq with rfl | hq'
        · exact absurd h2q (by omega)
        · exact hC4 q hq' h2q
    · -- the long case: a reference field is attached to the parent
      have h2q0 : 2 ≤ (pySplitDot q0).length := by omega
      have hparmem := hclose q0 hq0mem h2q0
      have hparpcn := hTOT _ hparmem
      obtain ⟨pCN, hparent⟩ : ∃ n, alGet b.pcn (joinDot (pySplitDot q0).dropLast) = some n := by
        unfold alMem at hparpcn
        cases hg : alGet b.pcn (joinDot (pySplitDot q0).dropLast) with
        | none => rw [hg] at hparpcn; simp at hparpcn
        | some n => exact ⟨n, rfl⟩
      have hbcms : alGet b.cms pCN = some ⟨pCN, []⟩ := hCI.linkage _ pCN hparent
      have hcmsmem : alMem cms pCN = true := by
        rw [hkeys pCN]
        unfold alMem
        rw [hbcms]
        rfl
      obtain ⟨pm, hcms⟩ : ∃ pm, alGet cms pCN = some pm := by
        unfold alMem at hcmsmem
        cases hg : alGet cms pCN with
        | none => rw [hg] at hcmsmem; simp at hcmsmem
        | some m => exact ⟨m, rfl⟩
      obtain ⟨hpmname, hpmfields⟩ := hw1 pCN pm hcms
      have hdup : pm.fields.any (fun f => decide (f.python_name =
          to_snake_case ((pySplitDot q0).getLastD ""))) = false := by
        cases hany : pm.fields.any (fun f => decide (f.python_name =
            to_snake_case ((pySplitDot q0).getLastD ""))) with
        | false => rfl
        | true =>
          exfalso
          obtain ⟨f, hf, hfp⟩ := List.any_eq_true.1 hany
          rw [decide_eq_true_eq] at hfp
          obtain ⟨q, hqproc, hq2, hqparent, hqpy, _⟩ := hpmfields f hf
          have hpareq : joinDot (pySplitDot q).dropLast =
              joinDot (pySplitDot q0).dropLast :=
            hCI.inj _ _ pCN hqparent hparent
          have : q = q0 := H2a q (hPmem q hqproc) q0 hq0mem hq2 h2q0 hpareq
            (by rw [← hqpy, hfp])
          exact hdisj q0 (by simp) (this ▸ hqproc)
      rw [wireStep_long d b cms q0 pCN pm hlen hparent hcms hdup]
      set newf : FieldInfo :=
        ⟨(pySplitDot q0).getLastD "",
         to_snake_case ((pySplitDot q0).getLastD ""),
         (alGet b.pcn q0).getD ((pySplitDot q0).getLastD ""), false,
         alMem (array_objects_of d) q0, ""⟩ with hnewf
      have hkeys' : ∀ x, alMem (alSet cms pCN ⟨pm.name, pm.fields ++ [newf]⟩) x =
          alMem b.cms x := by
        intro x
        rw [alMem_alSet_existing cms pCN _ hcmsmem x]
        exact hkeys x
      have hw1' : ∀ n M, alGet (alSet cms pCN ⟨pm.name, pm.fields ++ [newf]⟩) n = some M →
          M.name = n ∧ ∀ f ∈ M.fields, ∃ q ∈ processed ++ [q0],
            2 ≤ (pySplitDot q).length ∧
            alGet b.pcn (joinDot (pySplitDot q).dropLast) = some n ∧
            f.python_name = to_snake_case ((pySplitDot q).getLastD "") ∧
            f.type_str = (alGet b.pcn q).getD ((pySplitDot q).getLastD "") := by
        intro n M hM
        by_cases hn : pCN = n
        · subst hn
          rw [alGet_alSet_self] at hM
          injection hM with hM1
          subst hM1
          refine ⟨hpmname, ?_⟩
          intro f hf
          rcases List.mem_append.1 hf with hf' | hf'
          · obtain ⟨q, hq, hrest⟩ := hpmfields f hf'
            exact ⟨q, List.mem_append_left _ hq, hrest⟩
          · rw [List.mem_singleton] at hf'
            subst hf'
            exact ⟨q0, List.mem_append_right _ (by simp), h2q0, hparent, rfl, rfl⟩
        · rw [alGet_alSet_ne _ _ _ _ hn] at hM
          obtain ⟨h1, h2⟩ := hw1 n M hM
          refine ⟨h1, fun f hf => ?_⟩
          obtain ⟨q, hq, hrest⟩ := h2 f hf
          exact ⟨q, List.mem_append_left _ hq, hrest⟩
      obtain ⟨hC1, hC2, hC3, hC4⟩ := ih (processed ++ [q0])
        (alSet cms pCN ⟨pm.name, pm.fields ++ [newf]⟩)
        (fun x hx => by
          intro hmem
          rcases List.mem_append.1 hmem with h | h
          · exact hdisj x (List.mem_cons_of_mem _ hx) h
          · rw [List.mem_singleton] at h
            exact hq0S (h ▸ hx))
        (fun x hx => hSmem x (List.mem_cons_of_mem _ hx))
        (fun x hx => by
          rcases List.mem_append.1 hx with h | h
          · exact hPmem x h
          · rw [List.mem_singleton] at h
            exact h ▸ hq0mem)
        hnd' hkeys' hw1'
      refine ⟨hC1, ?_, ?_, ?_⟩
      · intro n M hM
        obtain ⟨h1, h2⟩ := hC2 n M hM
        refine ⟨h1, fun f hf => ?_⟩
        obtain ⟨q, hq, hrest⟩ := h2 f hf
        refine ⟨q, ?_, hrest⟩
        rcases List.mem_append.1 hq with h | h
        · rcases List.mem_append.1 h with h' | h'
          · exact List.mem_append_left _ h'
          · rw [List.mem_singleton] at h'
            exact List.mem_append_right _ (h' ▸ by simp)
        · exact List.mem_append_right _ (List.mem_cons_of_mem _ h)
      · intro n M hM
        by_cases hn : pCN = n
        · subst hn
          have hMpm : M = pm := by
            rw [hcms] at hM
            injection hM with h1
            exact h1.symm
          obtain ⟨M', hM', hsub⟩ := hC3 pCN ⟨pm.name, pm.fields ++ [newf]⟩
            (alGet_alSet_self _ _ _)
          refine ⟨M', hM', fun f hf => ?_⟩
          rw [hMpm] at hf
          exact hsub f (List.mem_append_left _ hf)
        · obtain ⟨M', hM', hsub⟩ := hC3 n M
            (by rw [alGet_alSet_ne _ _ _ _ hn]; exact hM)
          exact ⟨M', hM', hsub⟩
      · intro q hq h2q
        rcases List.mem_cons.1 hq with rfl | hq'
        · obtain ⟨M', hM', hsub⟩ := hC3 pCN ⟨pm.name, pm.fields ++ [newf]⟩
            (alGet_alSet_self _ _ _)
          exact ⟨pCN, M', newf, hparent, hM',
            hsub newf (List.mem_append_right _ (by simp)), rfl⟩
        · exact hC4 q hq' h2q

theorem headD_mem {α : Type} [Inhabited α] (l : List α) (dflt : α) (h : l ≠ []) :
    l.headD dflt ∈ l := by
  cases l with
  | nil => exact absurd rfl h
  | cons a as => simp

theorem fillRow_step_props (pcn : List (String × String)) (d : Discovery) (f : FillSt)
    (r : ParsedRow)
    (hTOTp : ∀ p ∈ d.nested_object_paths, alMem pcn p = true)
    (hhead : r.2.1 ≠ [] → r.2.1.headD "" ∈ d.nested_object_paths)
    (hdotr : ∀ x ∈ r.2.1, '.' ∉ x.data) :
    ((fillRow pcn f r).root_refs = f.root_refs ∨
      ∃ e, (fillRow pcn f r).root_refs = f.root_refs ++ [e] ∧
        alMem f.root_refs e.1 = false ∧ alGet pcn e.1 = some e.2.1 ∧
        e.1 ∈ d.nested_object_paths ∧ '.' ∉ e.1.data ∧
        e.1 = r.2.1.headD "" ∧ r.2.1 ≠ []) ∧
    ((fillRow pcn f r).rootFields = f.rootFields ∨
      (r.2.1 = [] ∧ (fillRow pcn f r).rootFields = f.rootFields ++
        [⟨r.2.2.1, to_snake_case r.2.2.1, get_python_type (r.1.TypeId.getD 1),
          decide (r.1.IsRequired.getD 0 = 1), false, r.1.Description.getD ""⟩])) ∧
    ((fillRow pcn f r).cms = f.cms ∨
      (∃ k pm x, alGet f.cms k = some pm ∧
        (fillRow pcn f r).cms = alSet f.cms k ⟨pm.name, pm.fields ++ [x]⟩) ∨
      (∃ k x, (fillRow pcn f r).cms = alAddField f.cms k x)) := by
  obtain ⟨param, pp, fn, ai, sa⟩ := r
  unfold fillRow
  dsimp only
  by_cases hpp0 : pp.length = 0
  · rw [if_pos hpp0]
    have hnil : pp = [] := by
      cases pp with
      | nil => rfl
      | cons a as => simp at hpp0
    refine ⟨Or.inl rfl, Or.inr ⟨hnil, rfl⟩, Or.inl rfl⟩
  · rw [if_neg hpp0]
    have hne : pp ≠ [] := by
      intro h
      rw [h] at hpp0
      simp at hpp0
    by_cases hsa : sa = true
    · rw [if_pos hsa]
      cases hg : alGet pcn (joinDot pp) with
      | some parentCN =>
        dsimp only
        cases hc : alGet f.cms parentCN with
        | some pm =>
          dsimp only
          by_cases hany : pm.fields.any
              (fun fl => decide (fl.python_name = to_snake_case fn)) = true
          · rw [if_pos hany]
            exact ⟨Or.inl rfl, Or.inl rfl, Or.inl rfl⟩
          · rw [if_neg hany]
            exact ⟨Or.inl rfl, Or.inl rfl,
              Or.inr (Or.inl ⟨parentCN, pm, _, hc, rfl⟩)⟩
        | none => exact ⟨Or.inl rfl, Or.inl rfl, Or.inl rfl⟩
      | none =>
        dsimp only
        rw [if_neg hpp0]
        exact ⟨Or.inl rfl, Or.inl rfl, Or.inl rfl⟩
    · rw [if_neg hsa]
      by_cases hai : ai = true
      · rw [if_pos hai]
        cases hg : alGet pcn (joinDot pp) with
        | none => exact ⟨Or.inl rfl, Or.inl rfl, Or.inl rfl⟩
        | some cn =>
          dsimp only
          by_cases hlen1 : pp.length = 1
          · rw [if_pos hlen1]
            by_cases hmem : alMem f.root_refs (pp.headD "") = true
            · rw [if_pos hmem]
              exact ⟨Or.inl rfl, Or.inl rfl,
                Or.inr (Or.inr ⟨cn, _, rfl⟩)⟩
            · rw [if_neg hmem]
              have hone : pp = [pp.headD ""] := by
                cases pp with
                | nil => simp at hlen1
                | cons a as =>
                  cases as with
                  | nil => rfl
                  | cons b bs => simp at hlen1
              have hjoin1 : joinDot pp = pp.headD "" := by
                rw [hone]
                rfl
              refine ⟨Or.inr ⟨(pp.headD "", (cn, true, false)), rfl, by simpa using hmem,
                ?_, ?_, ?_, rfl, hne⟩, Or.inl rfl,
                Or.inr (Or.inr ⟨cn, _, rfl⟩)⟩
              · rw [← hjoin1]
                exact hg
              · exact hhead hne
              · exact hdotr _ (headD_mem pp "" hne)
          · rw [if_neg hlen1]
            exact ⟨Or.inl rfl, Or.inl rfl, Or.inr (Or.inr ⟨cn, _, rfl⟩)⟩
      · rw [if_neg hai]
        have hcmscase : (match alGet pcn (joinDot pp) with
            | none => f
            | some cn => { f with cms := (alAddField f.cms cn
                ⟨fn, to_snake_case fn, get_python_type (param.TypeId.getD 1),
                 decide (param.IsRequired.getD 0 = 1), false,
                 param.Description.getD ""⟩) }).cms = f.cms ∨
            ∃ k x, (match alGet pcn (joinDot pp) with
            | none => f
            | some cn => { f with cms := (alAddField f.cms cn
                ⟨fn, to_snake_case fn, get_python_type (param.TypeId.getD 1),
                 decide (param.IsRequired.getD 0 = 1), false,
                 param.Description.getD ""⟩) }).cms = alAddField f.cms k x := by
          cases hg : alGet pcn (joinDot pp) with
          | none => exact Or.inl rfl
          | some cn => exact Or.inr ⟨cn, _, rfl⟩
        have hrfcase : (match alGet pcn (joinDot pp) with
            | none => f
            | some cn => { f with cms := (alAddField f.cms cn
                ⟨fn, to_snake_case fn, get_python_type (param.TypeId.getD 1),
                 decide (param.IsRequired.getD 0 = 1), false,
                 param.Description.getD ""⟩) }).root_refs = f.root_refs ∧
            (match alGet pcn (joinDot pp) with
            | none => f
            | some cn => { f with cms := (alAddField f.cms cn
                ⟨fn, to_snake_case fn, get_python_type (param.TypeId.getD 1),
                 decide (param.IsRequired.getD 0 = 1), false,
                 param.Description.getD ""⟩) }).rootFields = f.rootFields := by
          cases hg : alGet pcn (joinDot pp) with
          | none => exact ⟨rfl, rfl⟩
          | some cn => exact ⟨rfl, rfl⟩
        cases hg : alGet pcn (joinDot pp) with
        | none =>
          rw [hg] at hcmscase hrfcase
          dsimp only at hcmscase hrfcase ⊢
          by_cases hmem : alMem f.root_refs (pp.headD "") = true
          · rw [if_pos hmem]
            exact ⟨Or.inl rfl, Or.inl rfl, Or.inl rfl⟩
          · rw [if_neg hmem]
            have hheadmem := hhead hne
            have hpcnhead := hTOTp _ hheadmem
            obtain ⟨v, hv⟩ : ∃ v, alGet pcn (pp.headD "") = some v := by
              unfold alMem at hpcnhead
              cases hx : alGet pcn (pp.headD "") with
              | none => rw [hx] at hpcnhead; simp at hpcnhead
              | some v => exact ⟨v, rfl⟩
            refine ⟨Or.inr ⟨(pp.headD "", (v, false, false)), ?_, by simpa using hmem,
              hv, hheadmem, hdotr _ (headD_mem pp "" hne), rfl, hne⟩,
              Or.inl rfl, Or.inl rfl⟩
            rw [hv]
            rfl
        | some cn =>
          rw [hg] at hcmscase hrfcase
          dsimp only at hcmscase hrfcase ⊢
          by_cases hmem : alMem f.root_refs (pp.headD "") = true
          · rw [if_pos hmem]
            exact ⟨Or.inl hrfcase.1, Or.inl hrfcase.2, Or.inr (Or.inr ⟨cn, _, rfl⟩)⟩
          · rw [if_neg hmem]
            have hheadmem := hhead hne
            have hpcnhead := hTOTp _ hheadmem
            obtain ⟨v, hv⟩ : ∃ v, alGet pcn (pp.headD "") = some v := by
              unfold alMem at hpcnhead
              cases hx : alGet pcn (pp.headD "") with
              | none => rw [hx] at hpcnhead; simp at hpcnhead
              | some v => exact ⟨v, rfl⟩
            refine ⟨Or.inr ⟨(pp.headD "", (v, false, false)), ?_, by simpa using hmem,
              hv, hheadmem, hdotr _ (headD_mem pp "" hne), rfl, hne⟩,
              Or.inl hrfcase.2, Or.inr (Or.inr ⟨cn, _, rfl⟩)⟩
            rw [hrfcase.1, hv]
            rfl

theorem fillRow_rootRefs_shape (pcn : List (String × String)) (d : Discovery)
    (f : FillSt) (r : ParsedRow)
    (hTOTp : ∀ p ∈ d.nested_object_paths, alMem pcn p = true)
    (hhead : r.2.1 ≠ [] → r.2.1.headD "" ∈ d.nested_object_paths)
    (hdotr : ∀ x ∈ r.2.1, '.' ∉ x.data) :
    ∀ kv ∈ (fillRow pcn f r).root_refs, kv ∈ f.root_refs ∨
      (alGet pcn kv.1 = some kv.2.1 ∧ kv.1 ∈ d.nested_object_paths ∧
        '.' ∉ kv.1.data ∧ alMem f.root_refs kv.1 = false) := by
  intro kv hkv
  obtain ⟨hrr, _, _⟩ := fillRow_step_props pcn d f r hTOTp hhead hdotr
  rcases hrr with h | ⟨e, he, hmemf, hpcn, hnest, hdot1, _, _⟩
  · rw [h] at hkv
    exact Or.inl hkv
  · rw [he] at hkv
    rcases List.mem_append.1 hkv with h' | h'
    · exact Or.inl h'
    · rw [List.mem_singleton] at h'
      subst h'
      exact Or.inr ⟨hpcn, hnest, hdot1, hmemf⟩

theorem fillRow_rootRefs_mono (pcn : List (String × String)) (d : Discovery)
    (f : FillSt) (r : ParsedRow)
    (hTOTp : ∀ p ∈ d.nested_object_paths, alMem pcn p = true)
    (hhead : r.2.1 ≠ [] → r.2.1.headD "" ∈ d.nested_object_paths)
    (hdotr : ∀ x ∈ r.2.1, '.' ∉ x.data) :
    ∀ kv ∈ f.root_refs, kv ∈ (fillRow pcn f r).root_refs := by
  intro kv hkv
  obtain ⟨hrr, _, _⟩ := fillRow_step_props pcn d f r hTOTp hhead hdotr
  rcases hrr with h | ⟨e, he, _⟩
  · rw [h]
    exact hkv
  · rw [he]
    exact List.mem_append_left _ hkv

theorem fillRow_hook_plain (pcn : List (String × String)) (f : FillSt) (r : ParsedRow)
    (hne : r.2.1 ≠ []) (hai : r.2.2.2.1 = false) (hsa : r.2.2.2.2 = false) :
    alMem (fillRow pcn f r).root_refs (r.2.1.headD "") = true := by
  obtain ⟨param, pp, fn, ai, sa⟩ := r
  dsimp only at hne hai hsa ⊢
  subst hai hsa
  unfold fillRow
  dsimp only
  have hpp0 : ¬ pp.length = 0 := by
    intro h
    apply hne
    cases pp with
    | nil => rfl
    | cons a as => simp at h
  rw [if_neg hpp0, if_neg (by simp), if_neg (by simp)]
  cases hg : alGet pcn (joinDot pp) with
  | none =>
    dsimp only
    by_cases hmem : alMem f.root_refs (pp.headD "") = true
    · rw [if_pos hmem]
      exact hmem
    · rw [if_neg hmem]
      dsimp only
      rw [alMem_append_single]
      simp
  | some cn =>
    dsimp only
    by_cases hmem : alMem f.root_refs (pp.headD "") = true
    · rw [if_pos hmem]
      exact hmem
    · rw [if_neg hmem]
      dsimp only
      rw [alMem_append_single]
      simp

theorem fillRow_hook_ai (pcn : List (String × String)) (f : FillSt) (r : ParsedRow)
    (hai : r.2.2.2.1 = true) (hsa : r.2.2.2.2 = false) (hlen : r.2.1.length = 1)
    (hpcn : alMem pcn (joinDot r.2.1) = true) :
    alMem (fillRow pcn f r).root_refs (r.2.1.headD "") = true := by
  obtain ⟨param, pp, fn, ai, sa⟩ := r
  dsimp only at hai hsa hlen hpcn ⊢
  subst hai hsa
  unfold fillRow
  dsimp only
  rw [if_neg (by omega), if_neg (by simp), if_pos rfl]
  obtain ⟨cn, hg⟩ : ∃ cn, alGet pcn (joinDot pp) = some cn := by
    unfold alMem at hpcn
    cases hx : alGet pcn (joinDot pp) with
    | none => rw [hx] at hpcn; simp at hpcn
    | some cn => exact ⟨cn, rfl⟩
  rw [hg]
  dsimp only
  rw [if_pos hlen]
  by_cases hmem : alMem f.root_refs (pp.headD "") = true
  · rw [if_pos hmem]
    exact hmem
  · rw [if_neg hmem]
    dsimp only
    rw [alMem_append_single]
    simp

theorem alAddField_mono (cms : List (String × NestedModel)) (k : String) (x : FieldInfo) :
    ∀ n M, alGet cms n = some M →
      ∃ M', alGet (alAddField cms k x) n = some M' ∧ M'.name = M.name ∧
        ∀ g ∈ M.fields, g ∈ M'.fields := by
  intro n M hM
  unfold alAddField
  cases hk : alGet cms k with
  | none => exact ⟨M, hM, rfl, fun g hg => hg⟩
  | some m =>
    by_cases hn : k = n
    · subst hn
      have : m = M := by
        rw [hk] at hM
        injection hM
      subst this
      refine ⟨⟨m.name, m.fields ++ [x]⟩, alGet_alSet_self _ _ _, rfl, ?_⟩
      intro g hg
      exact List.mem_append_left _ hg
    · exact ⟨M, by rw [alGet_alSet_ne _ _ _ _ hn]; exact hM, rfl, fun g hg => hg⟩

theorem fillRow_cms_mono (pcn : List (String × String)) (d : Discovery)
    (f : FillSt) (r : ParsedRow)
    (hTOTp : ∀ p ∈ d.nested_object_paths, alMem pcn p = true)
    (hhead : r.2.1 ≠ [] → r.2.1.headD "" ∈ d.nested_object_paths)
    (hdotr : ∀ x ∈ r.2.1, '.' ∉ x.data) :
    ∀ n M, alGet f.cms n = some M →
      ∃ M', alGet (fillRow pcn f r).cms n = some M' ∧ ∀ g ∈ M.fields, g ∈ M'.fields := by
  intro n M hM
  obtain ⟨_, _, hcms⟩ := fillRow_step_props pcn d f r hTOTp hhead hdotr
  rcases hcms with h | ⟨k, pm, x, hk, h⟩ | ⟨k, x, h⟩
  · exact ⟨M, by rw [h]; exact hM, fun g hg => hg⟩
  · rw [h]
    by_cases hn : k = n
    · subst hn
      have : pm = M := by
        rw [hk] at hM
        injection hM
      subst this
      exact ⟨⟨pm.name, pm.fields ++ [x]⟩, alGet_alSet_self _ _ _,
        fun g hg => List.mem_append_left _ hg⟩
    · exact ⟨M, by rw [alGet_alSet_ne _ _ _ _ hn]; exact hM, fun g hg => hg⟩
  · rw [h]
    obtain ⟨M', hM', _, hsub⟩ := alAddField_mono f.cms k x n M hM
    exact ⟨M', hM', hsub⟩

theorem fill_fold (pcn : List (String × String)) (d : Discovery)
    (hTOTp : ∀ p ∈ d.nested_object_paths, alMem pcn p = true) :
    ∀ (rowsL : List ParsedRow) (f : FillSt),
      (∀ r ∈ rowsL, r.2.1 ≠ [] → r.2.1.headD "" ∈ d.nested_object_paths) →
      (∀ r ∈ rowsL, ∀ x ∈ r.2.1, '.' ∉ x.data) →
      (∀ kv ∈ (rowsL.foldl (fillRow pcn) f).root_refs, kv ∈ f.root_refs ∨
        (alGet pcn kv.1 = some kv.2.1 ∧ kv.1 ∈ d.nested_object_paths ∧
          '.' ∉ kv.1.data)) ∧
      (∀ kv ∈ f.root_refs, kv ∈ (rowsL.foldl (fillRow pcn) f).root_refs) ∧
      (∀ r ∈ rowsL, r.2.1 ≠ [] → r.2.2.2.1 = false → r.2.2.2.2 = false →
        alMem (rowsL.foldl (fillRow pcn) f).root_refs (r.2.1.headD "") = true) ∧
      (∀ r ∈ rowsL, r.2.2.2.1 = true → r.2.2.2.2 = false → r.2.1.length = 1 →
        alMem (rowsL.foldl (fillRow pcn) f).root_refs (r.2.1.headD "") = true) ∧
      (∀ n M, alGet f.cms n = some M →
        ∃ M', alGet (rowsL.foldl (fillRow pcn) f).cms n = some M' ∧
          ∀ g ∈ M.fields, g ∈ M'.fields) ∧
      (∀ fld ∈ (rowsL.foldl (fillRow pcn) f).rootFields, fld ∈ f.rootFields ∨
        ∃ r ∈ rowsL, r.2.1 = [] ∧ fld.python_name = to_snake_case r.2.2.1) := by
  intro rowsL
  induction rowsL with
  | nil =>
    intro f _ _
    refine ⟨fun kv hkv => Or.inl hkv, fun kv hkv => hkv, by simp, by simp,
      fun n M hM => ⟨M, hM, fun g hg => hg⟩, fun fld hfld => Or.inl hfld⟩
  | cons r0 rowsL ih =>
    intro f hhead hdot
    have hhead0 := hhead r0 (by simp)
    have hdot0 := hdot r0 (by simp)
    simp only [List.foldl_cons]
    obtain ⟨hC1, hC2, hC3, hC4, hC5, hC6⟩ := ih (fillRow pcn f r0)
      (fun r hr => hhead r (List.mem_cons_of_mem _ hr))
      (fun r hr => hdot r (List.mem_cons_of_mem _ hr))
    refine ⟨?_, ?_, ?_, ?_, ?_, ?_⟩
    · intro kv hkv
      rcases hC1 kv hkv with h | h
      · rcases fillRow_rootRefs_shape pcn d f r0 hTOTp hhead0 hdot0 kv h with h' | h'
        · exact Or.inl h'
        · exact Or.inr ⟨h'.1, h'.2.1, h'.2.2.1⟩
      · exact Or.inr h
    · intro kv hkv
      exact hC2 kv (fillRow_rootRefs_mono pcn d f r0 hTOTp hhead0 hdot0 kv hkv)
    · intro r hr hne hai hsa
      rcases List.mem_cons.1 hr with rfl | hr'
      · have hm := fillRow_hook_plain pcn f r hne hai hsa
        obtain ⟨v, hv⟩ : ∃ v, alGet (fillRow pcn f r).root_refs (r.2.1.headD "") = some v := by
          unfold alMem at hm
          cases hx : alGet (fillRow pcn f r).root_refs (r.2.1.headD "") with
          | none => rw [hx] at hm; simp at hm
          | some v => exact ⟨v, rfl⟩
        exact alMem_of_mem _ _ _ (hC2 _ (alGet_mem _ _ _ hv))
      · exact hC3 r hr' hne hai hsa
    · intro r hr hai hsa hlen1
      rcases List.mem_cons.1 hr with rfl | hr'
      · have hne : r.2.1 ≠ [] := by
          intro h
          rw [h] at hlen1
          simp at hlen1
        have hjoin1 : joinDot r.2.1 = r.2.1.headD "" := by
          cases hl : r.2.1 with
          | nil => exact absurd hl hne
          | cons a as =>
            cases as with
            | nil => rfl
            | cons b bs => rw [hl] at hlen1; simp at hlen1
        have hm := fillRow_hook_ai pcn f r hai hsa hlen1
          (by rw [hjoin1]; exact hTOTp _ (hhead0 hne))
        obtain ⟨v, hv⟩ : ∃ v, alGet (fillRow pcn f r).root_refs (r.2.1.headD "") = some v := by
          unfold alMem at hm
          cases hx : alGet (fillRow pcn f r).root_refs (r.2.1.headD "") with
          | none => rw [hx] at hm; simp at hm
          | some v => exact ⟨v, rfl⟩
        exact alMem_of_mem _ _ _ (hC2 _ (alGet_mem _ _ _ hv))
      · exact hC4 r hr' hai hsa hlen1
    · intro n M hM
      obtain ⟨M1, hM1, hsub1⟩ := fillRow_cms_mono pcn d f r0 hTOTp hhead0 hdot0 n M hM
      obtain ⟨M2, hM2, hsub2⟩ := hC5 n M1 hM1
      exact ⟨M2, hM2, fun g hg => hsub2 g (hsub1 g hg)⟩
    · intro fld hfld
      rcases hC6 fld hfld with h | ⟨r, hr, hrest⟩
      · obtain ⟨_, hrf, _⟩ := fillRow_step_props pcn d f r0 hTOTp hhead0 hdot0
        rcases hrf with h' | ⟨hnil, h'⟩
        · rw [h'] at h
          exact Or.inl h
        · rw [h'] at h
          rcases List.mem_append.1 h with h'' | h''
          · exact Or.inl h''
          · rw [List.mem_singleton] at h''
            subst h''
            exact Or.inr ⟨r0, by simp, hnil, rfl⟩
      · exact Or.inr ⟨r, List.mem_cons_of_mem _ hr, hrest⟩

theorem rootRefStep_mono (rfs : List FieldInfo) (kv : String × (String × Bool × Bool)) :
    ∀ fld ∈ rfs, fld ∈ rootRefStep rfs kv := by
  intro fld hfld
  unfold rootRefStep
  dsimp only
  split
  · exact hfld
  · exact List.mem_append_left _ hfld

theorem rootRef_fold_mono :
    ∀ (refs : List (String × (String × Bool × Bool))) (rfs : List FieldInfo),
      ∀ fld ∈ rfs, fld ∈ refs.foldl rootRefStep rfs := by
  intro refs
  induction refs with
  | nil => intro rfs fld hfld; exact hfld
  | cons kv0 refs ih =>
    intro rfs fld hfld
    simp only [List.foldl_cons]
    exact ih _ fld (rootRefStep_mono rfs kv0 fld hfld)

theorem rootRef_fold :
    ∀ (refs : List (String × (String × Bool × Bool))) (rfs : List FieldInfo),
      (refs.map (fun kv => to_snake_case kv.1)).Nodup →
      (∀ fld ∈ rfs, ∀ kv ∈ refs, fld.python_name ≠ to_snake_case kv.1) →
      (∀ kv ∈ refs, ∃ fld ∈ refs.foldl rootRefStep rfs,
        fld.name = kv.1 ∧ fld.type_str = kv.2.1 ∧
        fld.python_name = to_snake_case kv.1) ∧
      (∀ fld ∈ refs.foldl rootRefStep rfs, fld ∈ rfs ∨
        ∃ kv ∈ refs, fld = ⟨kv.1, to_snake_case kv.1, kv.2.1, kv.2.2.2, kv.2.2.1, ""⟩) := by
  intro refs
  induction refs with
  | nil =>
    intro rfs _ _
    exact ⟨by simp, fun fld hfld => Or.inl hfld⟩
  | cons kv0 refs ih =>
    intro rfs hnd hnc
    have hany : rfs.any (fun fl => decide (fl.python_name = to_snake_case kv0.1)) = false := by
      rw [List.any_eq_false]
      intro fld hfld
      simp only [decide_eq_true_eq]
      exact hnc fld hfld kv0 (by simp)
    have hstep : rootRefStep rfs kv0 = rfs ++
        [⟨kv0.1, to_snake_case kv0.1, kv0.2.1, kv0.2.2.2, kv0.2.2.1, ""⟩] := by
      unfold rootRefStep
      dsimp only
      rw [hany]
      simp
    simp only [List.foldl_cons, hstep]
    have hnd' : (refs.map (fun kv => to_snake_case kv.1)).Nodup := by
      simp only [List.map_cons, List.nodup_cons] at hnd
      exact hnd.2
    have hne0 : ∀ kv ∈ refs, to_snake_case kv0.1 ≠ to_snake_case kv.1 := by
      intro kv hkv heq
      simp only [List.map_cons, List.nodup_cons] at hnd
      exact hnd.1 (heq ▸ List.mem_map_of_mem (fun kv => to_snake_case kv.1) hkv)
    have hnc' : ∀ fld ∈ rfs ++
        [(⟨kv0.1, to_snake_case kv0.1, kv0.2.1, kv0.2.2.2, kv0.2.2.1, ""⟩ : FieldInfo)],
        ∀ kv ∈ refs, fld.python_name ≠ to_snake_case kv.1 := by
      intro fld hfld kv hkv
      rcases List.mem_append.1 hfld with h | h
      · exact hnc fld h kv (List.mem_cons_of_mem _ hkv)
      · rw [List.mem_singleton] at h
        subst h
        exact hne0 kv hkv
    obtain ⟨ihcov, ihshape⟩ := ih _ hnd' hnc'
    refine ⟨?_, ?_⟩
    · intro kv hkv
      rcases List.mem_cons.1 hkv with rfl | hkv'
      · refine ⟨⟨kv.1, to_snake_case kv.1, kv.2.1, kv.2.2.2, kv.2.2.1, ""⟩,
          rootRef_fold_mono refs _ _ (List.mem_append_right _ (by simp)), rfl, rfl, rfl⟩
      · exact ihcov kv hkv'
    · intro fld hfld
      rcases ihshape fld hfld with h | ⟨kv, hkv, hsh⟩
      · rcases List.mem_append.1 h with h' | h'
        · exact Or.inl h'
        · rw [List.mem_singleton] at h'
          exact Or.inr ⟨kv0, by simp, h'⟩
      · exact Or.inr ⟨kv, List.mem_cons_of_mem _ hkv, hsh⟩

theorem alMem_alAddField (cms : List (String × NestedModel)) (k : String)
    (x : FieldInfo) : ∀ y, alMem (alAddField cms k x) y = alMem cms y := by
  intro y
  unfold alAddField
  cases hk : alGet cms k with
  | none => rfl
  | some m =>
    exact alMem_alSet_existing cms k _ (by unfold alMem; rw [hk]; rfl) y

theorem fillRow_cms_keys (pcn : List (String × String)) (d : Discovery)
    (f : FillSt) (r : ParsedRow)
    (hTOTp : ∀ p ∈ d.nested_object_paths, alMem pcn p = true)
    (hhead : r.2.1 ≠ [] → r.2.1.headD "" ∈ d.nested_object_paths)
    (hdotr : ∀ x ∈ r.2.1, '.' ∉ x.data) :
    ∀ y, alMem (fillRow pcn f r).cms y = alMem f.cms y := by
  intro y
  obtain ⟨_, _, hcms⟩ := fillRow_step_props pcn d f r hTOTp hhead hdotr
  rcases hcms with h | ⟨k, pm, x, hk, h⟩ | ⟨k, x, h⟩
  · rw [h]
  · rw [h]
    exact alMem_alSet_existing f.cms k _ (by unfold alMem; rw [hk]; rfl) y
  · rw [h]
    exact alMem_alAddField f.cms k x y

theorem fillRow_rootRefs_nodup (pcn : List (String × String)) (d : Discovery)
    (f : FillSt) (r : ParsedRow)
    (hTOTp : ∀ p ∈ d.nested_object_paths, alMem pcn p = true)
    (hhead : r.2.1 ≠ [] → r.2.1.headD "" ∈ d.nested_object_paths)
    (hdotr : ∀ x ∈ r.2.1, '.' ∉ x.data)
    (hnd : (f.root_refs.map Prod.fst).Nodup) :
    ((fillRow pcn f r).root_refs.map Prod.fst).Nodup := by
  obtain ⟨hrr, _, _⟩ := fillRow_step_props pcn d f r hTOTp hhead hdotr
  rcases hrr with h | ⟨e, he, hmemf, _⟩
  · rw [h]
    exact hnd
  · rw [he, List.map_append, List.map_singleton]
    refine hnd.append (List.nodup_singleton _) ?_
    intro a ha hb
    rw [List.mem_singleton] at hb
    subst hb
    have : alGet f.root_refs e.1 = none :=
      alMem_false_alGet_none _ _ hmemf
    rw [alGet_none_iff_not_key] at this
    exact this ha

theorem fill_fold_keys (pcn : List (String × String)) (d : Discovery)
    (hTOTp : ∀ p ∈ d.nested_object_paths, alMem pcn p = true) :
    ∀ (rowsL : List ParsedRow) (f : FillSt),
      (∀ r ∈ rowsL, r.2.1 ≠ [] → r.2.1.headD "" ∈ d.nested_object_paths) →
      (∀ r ∈ rowsL, ∀ x ∈ r.2.1, '.' ∉ x.data) →
      (∀ y, alMem (rowsL.foldl (fillRow pcn) f).cms y = alMem f.cms y) ∧
      ((f.root_refs.map Prod.fst).Nodup →
        ((rowsL.foldl (fillRow pcn) f).root_refs.map Prod.fst).Nodup) := by
  intro rowsL
  induction rowsL with
  | nil =>
    intro f _ _
    exact ⟨fun y => rfl, fun h => h⟩
  | cons r0 rowsL ih =>
    intro f hhead hdot
    have hhead0 := hhead r0 (by simp)
    have hdot0 := hdot r0 (by simp)
    simp only [List.foldl_cons]
    obtain ⟨ihk, ihn⟩ := ih (fillRow pcn f r0)
      (fun r hr => hhead r (List.mem_cons_of_mem _ hr))
      (fun r hr => hdot r (List.mem_cons_of_mem _ hr))
    refine ⟨?_, ?_⟩
    · intro y
      rw [ihk y, fillRow_cms_keys pcn d f r0 hTOTp hhead0 hdot0 y]
    · intro hnd
      exact ihn (fillRow_rootRefs_nodup pcn d f r0 hTOTp hhead0 hdot0 hnd)

theorem nodup_map_inj {α β : Type} {l : List α} {g : α → β}
    (h : (l.map g).Nodup) : ∀ a ∈ l, ∀ b ∈ l, g a = g b → a = b := by
  induction l with
  | nil => intro a ha; simp at ha
  | cons x xs ih =>
    rw [List.map_cons, List.nodup_cons] at h
    intro a ha b hb hab
    rcases List.mem_cons.1 ha with rfl | ha' <;>
      rcases List.mem_cons.1 hb with rfl | hb'
    · rfl
    · exact absurd (hab ▸ List.mem_map_of_mem g hb') h.1
    · exact absurd (hab ▸ List.mem_map_of_mem g ha') h.1
    · exact ih h.2 a ha' b hb' hab

theorem create_eq (reg : List String) (params : List Param) (action : String)
    (rows : List ParsedRow) (hrows : parseRows params = some rows) :
    create_nested_structure reg params action =
      some (⟨"Root", rootRefPass (fillOf rows action reg)⟩,
        (fillOf rows action reg).cms, (buildOf rows action reg).reg) := by
  unfold create_nested_structure fillOf buildOf
  rw [hrows]
  rfl

theorem c4_core (rows : List ParsedRow) (action : String) (reg : List String)
    (hdot : ∀ r ∈ rows, ∀ x ∈ r.2.1, '.' ∉ x.data)
    (H1 : ∀ p ∈ (firstPass rows).nested_object_paths, (pySplitDot p).length = 1 →
      (∃ r ∈ rows, r.2.1.headD "" = p ∧ r.2.1 ≠ [] ∧
        r.2.2.2.1 = false ∧ r.2.2.2.2 = false) ∨
      (∃ r ∈ rows, r.2.1 = [p] ∧ r.2.2.2.1 = true ∧ r.2.2.2.2 = false))
    (H2a : ∀ p ∈ (firstPass rows).nested_object_paths,
      ∀ q ∈ (firstPass rows).nested_object_paths,
      2 ≤ (pySplitDot p).length → 2 ≤ (pySplitDot q).length →
      joinDot (pySplitDot p).dropLast = joinDot (pySplitDot q).dropLast →
      to_snake_case ((pySplitDot p).getLastD "") =
        to_snake_case ((pySplitDot q).getLastD "") → p = q)
    (H2b1 : ∀ p ∈ (firstPass rows).nested_object_paths,
      ∀ q ∈ (firstPass rows).nested_object_paths,
      '.' ∉ p.data → '.' ∉ q.data → to_snake_case p = to_snake_case q → p = q)
    (H2b2 : ∀ r ∈ rows, r.2.1 = [] →
      ∀ p ∈ (firstPass rows).nested_object_paths, '.' ∉ p.data →
      to_snake_case r.2.2.1 ≠ to_snake_case p) :
    ∀ n M, alGet (fillOf rows action reg).cms n = some M →
      Reachable (fillOf rows action reg).cms (rootRefPass (fillOf rows action reg)) n := by
  have hCI : CreateInv (firstPass rows) (buildOf rows action reg) :=
    (builder_inv rows action reg).1
  have hTOT : ∀ p ∈ (firstPass rows).nested_object_paths,
      alMem (buildOf rows action reg).pcn p = true :=
    (builder_inv rows action reg).2
  have hclose : ∀ q ∈ (firstPass rows).nested_object_paths, 2 ≤ (pySplitDot q).length →
      joinDot (pySplitDot q).dropLast ∈ (firstPass rows).nested_object_paths := by
    intro q hq h2
    obtain ⟨segs, hne, hsdot, hqe, hsplit, hlast⟩ := nested_path_structure rows hdot q hq
    rw [hsplit] at h2 ⊢
    exact hlast h2
  have hw1init : ∀ n M, alGet (buildOf rows action reg).cms n = some M → M.name = n ∧
      ∀ f ∈ M.fields, ∃ q ∈ ([] : List String), 2 ≤ (pySplitDot q).length ∧
        alGet (buildOf rows action reg).pcn (joinDot (pySplitDot q).dropLast) = some n ∧
        f.python_name = to_snake_case ((pySplitDot q).getLastD "") ∧
        f.type_str = (alGet (buildOf rows action reg).pcn q).getD
          ((pySplitDot q).getLastD "") := by
    intro n M hM
    obtain ⟨p, hp, hpn⟩ := hCI.onto n M hM
    have hlink := hCI.linkage p n hp
    rw [hM] at hlink
    injection hlink with hlink
    subst hlink
    exact ⟨rfl, by simp⟩
  obtain ⟨wkeys, w1, wmono, wsucc⟩ := wire_fold (firstPass rows) (buildOf rows action reg)
    hCI hTOT hclose H2a
    (sortStr (firstPass rows).nested_object_paths) []
    (buildOf rows action reg).cms
    (fun x _ => List.not_mem_nil x)
    (fun x hx => (mem_sortStr _ _).1 hx)
    (fun x hx => absurd hx (List.not_mem_nil x))
    (nodup_sortStr _ (nodup_nestedPaths rows))
    (fun x => rfl)
    hw1init
  have hheadr : ∀ r ∈ rows, r.2.1 ≠ [] →
      r.2.1.headD "" ∈ (firstPass rows).nested_object_paths :=
    fun r hr hne => head_prefix_mem_nested rows r hr hne
  obtain ⟨hC1, hC2, hC3, hC4, hC5, hC6⟩ :=
    fill_fold (buildOf rows action reg).pcn (firstPass rows) hTOT rows
      ⟨wirePass (firstPass rows) (buildOf rows action reg), [], []⟩ hheadr hdot
  obtain ⟨hkeysF, hndF⟩ :=
    fill_fold_keys (buildOf rows action reg).pcn (firstPass rows) hTOT rows
      ⟨wirePass (firstPass rows) (buildOf rows action reg), [], []⟩ hheadr hdot
  have hrefsnd : ((fillOf rows action reg).root_refs.map Prod.fst).Nodup :=
    hndF (by simp)
  have hrefprops : ∀ kv ∈ (fillOf rows action reg).root_refs,
      alGet (buildOf rows action reg).pcn kv.1 = some kv.2.1 ∧
      kv.1 ∈ (firstPass rows).nested_object_paths ∧ '.' ∉ kv.1.data := by
    intro kv hkv
    rcases hC1 kv hkv with h | h
    · exact absurd h (List.not_mem_nil kv)
    · exact h
  have hsnakend : ((fillOf rows action reg).root_refs.map
      (fun kv => to_snake_case kv.1)).Nodup := by
    have heq : (fillOf rows action reg).root_refs.map (fun kv => to_snake_case kv.1) =
        ((fillOf rows action reg).root_refs.map Prod.fst).map to_snake_case := by
      rw [List.map_map]
      rfl
    rw [heq]
    refine List.Nodup.map_on ?_ hrefsnd
    intro x hx y hy hxy
    rw [List.mem_map] at hx hy
    obtain ⟨kx, hkx, hkx1⟩ := hx
    obtain ⟨ky, hky, hky1⟩ := hy
    obtain ⟨_, hxn, hxd⟩ := hrefprops kx hkx
    obtain ⟨_, hyn, hyd⟩ := hrefprops ky hky
    subst hkx1 hky1
    exact H2b1 _ hxn _ hyn hxd hyd hxy
  have hnoclash : ∀ fld ∈ (fillOf rows action reg).rootFields,
      ∀ kv ∈ (fillOf rows action reg).root_refs,
      fld.python_name ≠ to_snake_case kv.1 := by
    intro fld hfld kv hkv
    rcases hC6 fld hfld with h | ⟨r, hr, hnil, hpn⟩
    · exact absurd h (List.not_mem_nil fld)
    · obtain ⟨_, hn, hd⟩ := hrefprops kv hkv
      rw [hpn]
      exact H2b2 r hr hnil kv.1 hn hd
  obtain ⟨rrcov, _⟩ := rootRef_fold (fillOf rows action reg).root_refs
    (fillOf rows action reg).rootFields hsnakend hnoclash
  have reach : ∀ k, ∀ p ∈ (firstPass rows).nested_object_paths,
      (pySplitDot p).length = k →
      ∀ n, alGet (buildOf rows action reg).pcn p = some n →
      Reachable (fillOf rows action reg).cms (rootRefPass (fillOf rows action reg)) n := by
    intro k
    induction k using Nat.strong_induction_on with
    | h k ih =>
      intro p hp hlen n hn
      obtain ⟨segs, hsne, hsdot, hpj, hsplit, hdropmem⟩ :=
        nested_path_structure rows hdot p hp
      rw [hsplit] at hlen
      by_cases h2 : 2 ≤ segs.length
      · have h2' : 2 ≤ (pySplitDot p).length := by rw [hsplit]; exact h2
        obtain ⟨n', M, f, hpar, hM, hfM, hft⟩ := wsucc p ((mem_sortStr _ _).2 hp) h2'
        rw [hn] at hft
        have hftn : f.type_str = n := by rw [hft]; rfl
        have hparmem : joinDot segs.dropLast ∈ (firstPass rows).nested_object_paths :=
          hdropmem h2
        have hdlne : segs.dropLast ≠ [] := by
          intro hnil
          have hlp := List.length_dropLast segs
          rw [hnil] at hlp
          simp at hlp
          omega
        have hdldot : ∀ x ∈ segs.dropLast, '.' ∉ x.data :=
          fun x hx => hsdot x (List.mem_of_mem_dropLast hx)
        have hsplitpar : pySplitDot (joinDot segs.dropLast) = segs.dropLast :=
          pySplitDot_joinDot _ hdlne hdldot
        have hlenpar : (pySplitDot (joinDot segs.dropLast)).length = k - 1 := by
          rw [hsplitpar, List.length_dropLast]
          omega
        rw [hsplit] at hpar
        have hreach' := ih (k - 1) (by omega) _ hparmem hlenpar n' hpar
        obtain ⟨M', hM', hfM'⟩ := hC5 n' M hM
        exact Reachable.step hreach' hM' (hfM' f hfM) hftn
      · have hpos : 0 < segs.length := List.length_pos.mpr hsne
        have h1 : segs.length = 1 := by omega
        have hsplen1 : (pySplitDot p).length = 1 := by rw [hsplit]; exact h1
        have hcommon : alMem (fillOf rows action reg).root_refs p = true →
            Reachable (fillOf rows action reg).cms
              (rootRefPass (fillOf rows action reg)) n := by
          intro hmem
          obtain ⟨v, hv⟩ : ∃ v, alGet (fillOf rows action reg).root_refs p = some v := by
            unfold alMem at hmem
            cases hx : alGet (fillOf rows action reg).root_refs p with
            | none => rw [hx] at hmem; simp at hmem
            | some v => exact ⟨v, rfl⟩
          have hkvmem := alGet_mem _ _ _ hv
          obtain ⟨hpcnv, _, _⟩ := hrefprops (p, v) hkvmem
          have hv1 : v.1 = n := by
            rw [hn] at hpcnv
            injection hpcnv with hpcnv
            exact hpcnv.symm
          obtain ⟨fld, hfldmem, hfname, hftype, hfpn⟩ := rrcov (p, v) hkvmem
          refine Reachable.fromRoot hfldmem ?_
          rw [hftype]
          exact hv1
        rcases H1 p hp hsplen1 with ⟨r, hr, hhd, hne, hai, hsa⟩ | ⟨r, hr, hpp, hai, hsa⟩
        · have hmem : alMem (fillOf rows action reg).root_refs (r.2.1.headD "") = true :=
            hC3 r hr hne hai hsa
          rw [hhd] at hmem
          exact hcommon hmem
        · have hlen1 : r.2.1.length = 1 := by rw [hpp]; rfl
          have hmem : alMem (fillOf rows action reg).root_refs (r.2.1.headD "") = true :=
            hC4 r hr hai hsa hlen1
          have hhd : r.2.1.headD "" = p := by rw [hpp]; rfl
          rw [hhd] at hmem
          exact hcommon hmem
  intro n M hM
  have hmemn : alMem (fillOf rows action reg).cms n = true := by
    unfold alMem
    rw [hM]
    rfl
  have hmemn2 : alMem (rows.foldl (fillRow (buildOf rows action reg).pcn)
      ⟨wirePass (firstPass rows) (buildOf rows action reg), [], []⟩).cms n = true := hmemn
  rw [hkeysF n] at hmemn2
  have hmemn := hmemn2
  dsimp only at hmemn
  rw [show wirePass (firstPass rows) (buildOf rows action reg) =
      (sortStr (firstPass rows).nested_object_paths).foldl
        (wireStep (firstPass rows) (buildOf rows action reg))
        (buildOf rows action reg).cms from rfl] at hmemn
  rw [wkeys n] at hmemn
  obtain ⟨M0, hM0⟩ : ∃ M0, alGet (buildOf rows action reg).cms n = some M0 := by
    unfold alMem at hmemn
    cases hx : alGet (buildOf rows action reg).cms n with
    | none => rw [hx] at hmemn; simp at hmemn
    | some M0 => exact ⟨M0, rfl⟩
  obtain ⟨p, hpcn, hpn⟩ := hCI.onto n M0 hM0
  exact reach (pySplitDot p).length p hpn rfl n hpcn

/-- **C4 (amended).**  Every auxiliary model produced by
`create_nested_structure` is reachable from the root model through reference
fields, provided (i) every first-level nested path is hooked to the root by
some row — a plain nested row whose first segment is that path, or an
array-item (non-simple-array) row directly under it; (ii) sibling leaf
segments at depth two or more have distinct snake-case names; (iii) distinct
first-level paths have distinct snake-case names; and (iv) no root-level
scalar leaf shares its snake-case name with a first-level path. -/
theorem c4_reachable_amended
    (params : List Param) (action : String) (reg : List String)
    (rows : List ParsedRow) (root : NestedModel)
    (cms : List (String × NestedModel)) (reg2 : List String)
    (hrows : parseRows params = some rows)
    (hcreate : create_nested_structure reg params action = some (root, cms, reg2))
    (H1 : ∀ p ∈ (firstPass rows).nested_object_paths, (pySplitDot p).length = 1 →
      (∃ r ∈ rows, r.2.1.headD "" = p ∧ r.2.1 ≠ [] ∧
        r.2.2.2.1 = false ∧ r.2.2.2.2 = false) ∨
      (∃ r ∈ rows, r.2.1 = [p] ∧ r.2.2.2.1 = true ∧ r.2.2.2.2 = false))
    (H2a : ∀ p ∈ (firstPass rows).nested_object_paths,
      ∀ q ∈ (firstPass rows).nested_object_paths,
      2 ≤ (pySplitDot p).length → 2 ≤ (pySplitDot q).length →
      joinDot (pySplitDot p).dropLast = joinDot (pySplitDot q).dropLast →
      to_snake_case ((pySplitDot p).getLastD "") =
        to_snake_case ((pySplitDot q).getLastD "") → p = q)
    (H2b1 : ∀ p ∈ (firstPass rows).nested_object_paths,
      ∀ q ∈ (firstPass rows).nested_object_paths,
      '.' ∉ p.data → '.' ∉ q.data → to_snake_case p = to_snake_case q → p = q)
    (H2b2 : ∀ r ∈ rows, r.2.1 = [] →
      ∀ p ∈ (firstPass rows).nested_object_paths, '.' ∉ p.data →
      to_snake_case r.2.2.1 ≠ to_snake_case p) :
    ∀ n M, alGet cms n = some M → Reachable cms root.fields n := by
  rw [create_eq reg params action rows hrows] at hcreate
  simp only [Option.some.injEq, Prod.mk.injEq] at hcreate
  obtain ⟨hroot, hcms, _⟩ := hcreate
  subst hroot hcms
  intro n M hM
  exact c4_core rows action reg (rows_pp_no_dot params rows hrows)
    H1 H2a H2b1 H2b2 n M hM

theorem c4_reachable_amended_witness :
    Reachable [("AForAct", ⟨"AForAct", [⟨"B", "b", "str", false, false, ""⟩]⟩)]
      [⟨"A", "a", "AForAct", false, false, ""⟩] "AForAct" :=
  c4_reachable_amended
    [⟨some "A.B", none, none, none, none, none⟩] "Act" []
    [(⟨some "A.B", none, none, none, none, none⟩, (["A"], "B", false, false))]
    ⟨"Root", [⟨"A", "a", "AForAct", false, false, ""⟩]⟩
    [("AForAct", ⟨"AForAct", [⟨"B", "b", "str", false, false, ""⟩]⟩)]
    ["AForAct"]
    (by decide) (by decide)
    (by decide) (by decide) (by decide) (by decide)
    "AForAct" ⟨"AForAct", [⟨"B", "b", "str", false, false, ""⟩]⟩ (by decide)
